import Mathlib

/-!
Verification of the mini-exchange backend's matching core.

The definitions below are a shallow embedding of the TypeScript source:
* `processOrder`, the matching engine (src/services/matchingEngine.ts),
  with its two price scans and its two matching loops;
* the order routes (src/routes/orders.ts): validation, the submit cycle
  with its ledger transaction, and cancellation;
* the promise-chain serialization gate `withLock`.

JS numbers carrying prices are embedded as rationals (prices are only
ever compared, never combined arithmetically), and quantities as
integers (the routes validate them as positive integers before the
engine runs).
-/

namespace MiniExchange

/-- The two sides of the book; the source's `"buy" | "sell"` string union. -/
inductive Side
  | buy
  | sell
deriving DecidableEq

/-- An order as the matching engine sees it: `{id, type, price, quantity}`. -/
structure Order where
  id : String
  type : Side
  price : ℚ
  quantity : ℤ
deriving DecidableEq

/-- A trade: `{buyOrderId, sellOrderId, price, quantity}`. -/
structure Trade where
  buyOrderId : String
  sellOrderId : String
  price : ℚ
  quantity : ℤ
deriving DecidableEq

/-- An entry of `orderUpdates`: which existing order got changed. -/
structure OrderUpdate where
  id : String
  quantity : ℤ
deriving DecidableEq

/-- The in-memory order book: `{ buy: Order[]; sell: Order[] }`. -/
structure OrderBook where
  buy : List Order
  sell : List Order
deriving DecidableEq

/-- Default used only to read a list cell whose index is known to be in
bounds (the source indexes the array directly). -/
def dummyOrder : Order := ⟨"", Side.buy, 0, 0⟩

/-- Default trade for reading a trade list cell known to be in bounds. -/
def dummyTrade : Trade := ⟨"", "", 0, 0⟩

/-- Default update entry for reading an update list cell known to be in
bounds. -/
def dummyUpd : OrderUpdate := ⟨"", 0⟩

/-- Does a candidate sell price beat the best price seen so far?  `none`
models the initial `bestPrice = Infinity`; the source compares with
`candidate.price < bestPrice`. -/
def beatsBestSell (p : ℚ) : Option (ℕ × ℚ) → Bool
  | none => true
  | some (_, bp) => decide (p < bp)

/-- Does a candidate buy price beat the best price seen so far?  `none`
models the initial `bestPrice = -Infinity`; the source compares with
`candidate.price > bestPrice`. -/
def beatsBestBuy (p : ℚ) : Option (ℕ × ℚ) → Bool
  | none => true
  | some (_, bp) => decide (bp < p)

/-- The scan of the sell book done for an incoming buy: the source's
`for` loop over `orderBook.sell` keeping `(bestIndex, bestPrice)`, taking
a candidate when `candidate.price <= newOrder.price && candidate.price <
bestPrice`. -/
def bestSellScan (limit : ℚ) : List Order → ℕ → Option (ℕ × ℚ) → Option (ℕ × ℚ)
  | [], _, best => best
  | c :: rest, i, best =>
      bestSellScan limit rest (i + 1)
        (if c.price ≤ limit ∧ beatsBestSell c.price best then some (i, c.price) else best)

/-- The scan of the buy book done for an incoming sell: candidates satisfy
`candidate.price >= newOrder.price && candidate.price > bestPrice`. -/
def bestBuyScan (limit : ℚ) : List Order → ℕ → Option (ℕ × ℚ) → Option (ℕ × ℚ)
  | [], _, best => best
  | c :: rest, i, best =>
      bestBuyScan limit rest (i + 1)
        (if limit ≤ c.price ∧ beatsBestBuy c.price best then some (i, c.price) else best)

/-- Result of the sell-book scan starting, as in the source, from
`bestIndex = -1` (here `none`) and `bestPrice = Infinity`. -/
def bestSellIdxPrice (sells : List Order) (limit : ℚ) : Option (ℕ × ℚ) :=
  bestSellScan limit sells 0 none

/-- Result of the buy-book scan starting from `bestIndex = -1` and
`bestPrice = -Infinity`. -/
def bestBuyIdxPrice (buys : List Order) (limit : ℚ) : Option (ℕ × ℚ) :=
  bestBuyScan limit buys 0 none

theorem bestSellScan_some_lt (limit : ℚ) :
    ∀ (l : List Order) (i0 : ℕ) (best : Option (ℕ × ℚ)),
      (∀ j p, best = some (j, p) → j < i0) →
      ∀ j p, bestSellScan limit l i0 best = some (j, p) → j < i0 + l.length := by
  intro l
  induction l with
  | nil =>
      intro i0 best hb j p h
      simpa using hb j p (by simpa [bestSellScan] using h)
  | cons c rest ih =>
      intro i0 best hb j p h
      simp only [bestSellScan] at h
      have hb' : ∀ j p,
          (if c.price ≤ limit ∧ beatsBestSell c.price best then some (i0, c.price) else best)
            = some (j, p) → j < i0 + 1 := by
        intro j p hj
        by_cases hc : c.price ≤ limit ∧ beatsBestSell c.price best
        · simp [hc] at hj
          omega
        · simp [hc] at hj
          exact Nat.lt_succ_of_lt (hb j p hj)
      have h2 := ih (i0 + 1) _ hb' j p h
      simp only [List.length_cons]
      omega

theorem bestBuyScan_some_lt (limit : ℚ) :
    ∀ (l : List Order) (i0 : ℕ) (best : Option (ℕ × ℚ)),
      (∀ j p, best = some (j, p) → j < i0) →
      ∀ j p, bestBuyScan limit l i0 best = some (j, p) → j < i0 + l.length := by
  intro l
  induction l with
  | nil =>
      intro i0 best hb j p h
      simpa using hb j p (by simpa [bestBuyScan] using h)
  | cons c rest ih =>
      intro i0 best hb j p h
      simp only [bestBuyScan] at h
      have hb' : ∀ j p,
          (if limit ≤ c.price ∧ beatsBestBuy c.price best then some (i0, c.price) else best)
            = some (j, p) → j < i0 + 1 := by
        intro j p hj
        by_cases hc : limit ≤ c.price ∧ beatsBestBuy c.price best
        · simp [hc] at hj
          omega
        · simp [hc] at hj
          exact Nat.lt_succ_of_lt (hb j p hj)
      have h2 := ih (i0 + 1) _ hb' j p h
      simp only [List.length_cons]
      omega

theorem bestSellIdxPrice_lt (sells : List Order) (limit : ℚ) (i : ℕ) (p : ℚ)
    (h : bestSellIdxPrice sells limit = some (i, p)) : i < sells.length := by
  have := bestSellScan_some_lt limit sells 0 none (by intro j q hj; cases hj) i p h
  simpa using this

theorem bestBuyIdxPrice_lt (buys : List Order) (limit : ℚ) (i : ℕ) (p : ℚ)
    (h : bestBuyIdxPrice buys limit = some (i, p)) : i < buys.length := by
  have := bestBuyScan_some_lt limit buys 0 none (by intro j q hj; cases hj) i p h
  simpa using this

/-- The matching loop of the buy branch of `processOrder`: while the
incoming order has quantity left, scan for the best-priced sell at or
under its limit; trade `min` of the two quantities at the resting sell's
price; decrement both sides; record the resting order's update; splice
the resting sell out when its quantity reaches 0.  Returns the final
sell book, the incoming order with its final quantity, the new trades
and the order updates, in push order. -/
def buyLoop (sells : List Order) (o : Order) :
    List Order × Order × List Trade × List OrderUpdate :=
  if h0 : 0 < o.quantity then
    match h : bestSellIdxPrice sells o.price with
    | none => (sells, o, [], [])
    | some (i, _) =>
        let m := sells.getD i dummyOrder
        let tradeQty := min o.quantity m.quantity
        let t : Trade := ⟨o.id, m.id, m.price, tradeQty⟩
        let u : OrderUpdate := ⟨m.id, max (m.quantity - tradeQty) 0⟩
        let o' : Order := { o with quantity := o.quantity - tradeQty }
        let sells' :=
          if m.quantity - tradeQty ≤ 0 then sells.eraseIdx i
          else sells.set i { m with quantity := m.quantity - tradeQty }
        let r := buyLoop sells' o'
        (r.1, r.2.1, t :: r.2.2.1, u :: r.2.2.2)
  else (sells, o, [], [])
termination_by (sells.length, o.quantity.toNat)
decreasing_by
  have hi := bestSellIdxPrice_lt _ _ _ _ h
  by_cases hm :
      (sells.getD i dummyOrder).quantity
        - min o.quantity (sells.getD i dummyOrder).quantity ≤ 0
  · rw [dif_pos hm]
    apply Prod.Lex.left
    rw [List.length_eraseIdx_of_lt hi]
    omega
  · rw [dif_neg hm, List.length_set]
    apply Prod.Lex.right
    omega

/-- The matching loop of the sell branch of `processOrder`: the mirror
of `buyLoop` over the buy book, except that the recorded trade carries
`buyOrderId = match.id`, `sellOrderId = newOrder.id` and — as the source
does — `price = newOrder.price`. -/
def sellLoop (buys : List Order) (o : Order) :
    List Order × Order × List Trade × List OrderUpdate :=
  if h0 : 0 < o.quantity then
    match h : bestBuyIdxPrice buys o.price with
    | none => (buys, o, [], [])
    | some (i, _) =>
        let m := buys.getD i dummyOrder
        let tradeQty := min o.quantity m.quantity
        let t : Trade := ⟨m.id, o.id, o.price, tradeQty⟩
        let u : OrderUpdate := ⟨m.id, max (m.quantity - tradeQty) 0⟩
        let o' : Order := { o with quantity := o.quantity - tradeQty }
        let buys' :=
          if m.quantity - tradeQty ≤ 0 then buys.eraseIdx i
          else buys.set i { m with quantity := m.quantity - tradeQty }
        let r := sellLoop buys' o'
        (r.1, r.2.1, t :: r.2.2.1, u :: r.2.2.2)
  else (buys, o, [], [])
termination_by (buys.length, o.quantity.toNat)
decreasing_by
  have hi := bestBuyIdxPrice_lt _ _ _ _ h
  by_cases hm :
      (buys.getD i dummyOrder).quantity
        - min o.quantity (buys.getD i dummyOrder).quantity ≤ 0
  · rw [dif_pos hm]
    apply Prod.Lex.left
    rw [List.length_eraseIdx_of_lt hi]
    omega
  · rw [dif_neg hm, List.length_set]
    apply Prod.Lex.right
    omega

/-- What one `processOrder` call returns (and, for `finalOrder`, the
incoming order object as the call leaves it after mutating its
quantity). -/
structure ProcessResult where
  orderBook : OrderBook
  newTrades : List Trade
  orderUpdates : List OrderUpdate
  finalOrder : Order
deriving DecidableEq

/-- The matching engine's `processOrder`: run the matching loop of the
incoming side against the opposite book, then push any unmatched
remainder to the back of the incoming side's book. -/
def processOrder (book : OrderBook) (newOrder : Order) : ProcessResult :=
  match newOrder.type with
  | Side.buy =>
      let r := buyLoop book.sell newOrder
      { orderBook :=
          { buy := if 0 < r.2.1.quantity then book.buy ++ [r.2.1] else book.buy
            sell := r.1 }
        newTrades := r.2.2.1
        orderUpdates := r.2.2.2
        finalOrder := r.2.1 }
  | Side.sell =>
      let r := sellLoop book.buy newOrder
      { orderBook :=
          { buy := r.1
            sell := if 0 < r.2.1.quantity then book.sell ++ [r.2.1] else book.sell }
        newTrades := r.2.2.1
        orderUpdates := r.2.2.2
        finalOrder := r.2.1 }

/-- Ledger order statuses. -/
inductive OrderStatus
  | OPEN
  | PARTIAL
  | FILLED
  | CANCELED
deriving DecidableEq

/-- The route's `computeStatus(originalQty, finalQty)`. -/
def computeStatus (originalQty finalQty : ℤ) : OrderStatus :=
  if finalQty ≤ 0 then OrderStatus.FILLED
  else if finalQty < originalQty then OrderStatus.PARTIAL
  else OrderStatus.OPEN

/-- The status the transaction writes for a matched existing order:
`remaining === 0 ? "FILLED" : "PARTIAL"`. -/
def matchedStatus (remaining : ℤ) : OrderStatus :=
  if remaining = 0 then OrderStatus.FILLED else OrderStatus.PARTIAL

/-- The route's `findRemainingQtyInBook`: the quantity of the order still
in the book (buy side searched first), 0 if it is in neither side. -/
def findRemainingQtyInBook (book : OrderBook) (id : String) : ℤ :=
  match book.buy.find? (fun o => o.id == id) with
  | some b => b.quantity
  | none =>
      match book.sell.find? (fun o => o.id == id) with
      | some s => s.quantity
      | none => 0

/-- A durable order row (`prisma.order`): what the submit route persists. -/
structure LedgerOrder where
  id : String
  type : Side
  price : ℚ
  quantity : ℤ
  status : OrderStatus
deriving DecidableEq

/-- The whole system state one cycle works on: the in-memory book, the
in-memory trade history, and the durable ledger (order rows, trade rows). -/
structure SysState where
  book : OrderBook
  trades : List Trade
  ledgerOrders : List LedgerOrder
  ledgerTrades : List Trade
deriving DecidableEq

/-- The state before any request: empty book, no trades, empty ledger. -/
def emptyState : SysState := ⟨⟨[], []⟩, [], [], []⟩

/-- `prisma.order.updateMany({where: {id}, data: {quantity, status}})`:
the count of matched rows and the rewritten table. -/
def updateManyOrder (ledger : List LedgerOrder) (id : String) (q : ℤ) (s : OrderStatus) :
    ℕ × List LedgerOrder :=
  ((ledger.filter (fun r => r.id == id)).length,
   ledger.map (fun r => if r.id == id then { r with quantity := q, status := s } else r))

/-- One iteration of the transaction's per-trade loop: append the trade
row, then rewrite both participants' rows from the remaining quantity in
the already-mutated book. -/
def ledgerTxStep (postBook : OrderBook) (acc : List LedgerOrder × List Trade)
    (t : Trade) : List LedgerOrder × List Trade :=
  let ledT := acc.2 ++ [t]
  let buyRemaining := findRemainingQtyInBook postBook t.buyOrderId
  let sellRemaining := findRemainingQtyInBook postBook t.sellOrderId
  let led1 := (updateManyOrder acc.1 t.buyOrderId buyRemaining
    (matchedStatus buyRemaining)).2
  let led2 := (updateManyOrder led1 t.sellOrderId sellRemaining
    (matchedStatus sellRemaining)).2
  (led2, ledT)

/-- The body of the submit transaction: create the incoming order's final
row, then run the per-trade writes over every new trade. -/
def ledgerTxWrites (led : List LedgerOrder) (ledTrades : List Trade) (postBook : OrderBook)
    (o : Order) (finalQty : ℤ) (status : OrderStatus) (newTrades : List Trade) :
    List LedgerOrder × List Trade :=
  let led0 := led ++ [⟨o.id, o.type, o.price, finalQty, status⟩]
  newTrades.foldl (ledgerTxStep postBook) (led0, ledTrades)

/-- A request-body number after `Number(x)`: either `NaN` or an actual
numeric value. -/
inductive NumVal
  | NaN
  | num (q : ℚ)
deriving DecidableEq

/-- The submit request body `{type, price, quantity}`; `none` models a
missing or `null` field, and for `type` also the empty string (the
source's falsiness test `!type`). -/
structure SubmitReq where
  type : Option String
  price : Option NumVal
  quantity : Option NumVal
deriving DecidableEq

/-- The submit route's validation, in source order: missing-field check,
type-literal check, NaN check, then positivity and integrality.  Returns
the parsed side, price and (integer) quantity. -/
def validateSubmit (req : SubmitReq) : Except String (Side × ℚ × ℤ) :=
  if req.type = none ∨ req.type = some "" ∨ req.price = none ∨ req.quantity = none then
    Except.error "Missing fields"
  else if req.type = some "buy" ∨ req.type = some "sell" then
    match req.price, req.quantity with
    | some (NumVal.num p), some (NumVal.num q) =>
        if ¬ q.den = 1 ∨ q ≤ 0 ∨ p ≤ 0 then
          Except.error "Price must be > 0 and quantity must be a positive integer"
        else
          Except.ok (if req.type = some "buy" then Side.buy else Side.sell, p, q.num)
    | _, _ => Except.error "Price and quantity must be numbers"
  else Except.error "type must be buy or sell"

/-- What the submit route responds with. -/
inductive SubmitOutcome
  | validationError (msg : String)
  | persistenceError
  | success (order : Order) (status : OrderStatus) (newTrades : List Trade)
deriving DecidableEq

/-- One submit cycle (the body run under the lock): validate, match
(mutating book and in-memory trade history), then persist the cycle in
one transaction — or, when `txFails` models a persistence failure, leave
the ledger untouched and answer with the 500 error while the in-memory
mutations stay in place. -/
def submit (st : SysState) (genId : String) (req : SubmitReq) (txFails : Bool) :
    SubmitOutcome × SysState :=
  match validateSubmit req with
  | Except.error msg => (SubmitOutcome.validationError msg, st)
  | Except.ok (side, p, q) =>
      let order : Order := ⟨genId, side, p, q⟩
      let originalQty := order.quantity
      let tradesBefore := st.trades.length
      let r := processOrder st.book order
      let trades' := st.trades ++ r.newTrades
      let newTrades := trades'.drop tradesBefore
      let finalQty := r.finalOrder.quantity
      let status := computeStatus originalQty finalQty
      if txFails then
        (SubmitOutcome.persistenceError,
         { st with book := r.orderBook, trades := trades' })
      else
        let w := ledgerTxWrites st.ledgerOrders st.ledgerTrades r.orderBook
          order finalQty status newTrades
        (SubmitOutcome.success { order with quantity := finalQty } status newTrades,
         { book := r.orderBook, trades := trades',
           ledgerOrders := w.1, ledgerTrades := w.2 })

/-- What the cancel route responds with. -/
inductive CancelOutcome
  | notFound
  | invalidState
  | success
deriving DecidableEq

/-- The cancel route's in-memory removal: `findIndex` on each side, then
a splice on each side whose index was found. -/
def removeFromBook (book : OrderBook) (id : String) : OrderBook :=
  let buyIndex := book.buy.findIdx? (fun o => o.id == id)
  let sellIndex := book.sell.findIdx? (fun o => o.id == id)
  { buy :=
      match buyIndex with
      | some i => book.buy.eraseIdx i
      | none => book.buy
    sell :=
      match sellIndex with
      | some i => book.sell.eraseIdx i
      | none => book.sell }

/-- One cancel cycle: look the id up in the ledger; 404 when absent, 400
when the row is `FILLED`; otherwise remove the order from the in-memory
book and rewrite the row to `CANCELED` with quantity 0 (a second 404
when that rewrite matches no row). -/
def cancel (st : SysState) (id : String) : CancelOutcome × SysState :=
  match st.ledgerOrders.find? (fun r => r.id == id) with
  | none => (CancelOutcome.notFound, st)
  | some existing =>
      if existing.status = OrderStatus.FILLED then (CancelOutcome.invalidState, st)
      else
        let book' := removeFromBook st.book id
        let upd := updateManyOrder st.ledgerOrders id 0 OrderStatus.CANCELED
        if upd.1 = 0 then
          (CancelOutcome.notFound, { st with book := book', ledgerOrders := upd.2 })
        else
          (CancelOutcome.success, { st with book := book', ledgerOrders := upd.2 })

/-- A queued cycle: runs on the shared state and settles — fulfilled with
a value or rejected with an error — leaving the state behind.  (`Except`
stands for the settled outcome of the cycle's promise.) -/
def Cycle (σ ε α : Type) : Type := σ → Except ε α × σ

/-- The gate's persistent state: the shared system state plus the settled
outcome of the module-level `queue` promise the source chains on. -/
structure LockState (σ ε : Type) where
  sys : σ
  queue : Except ε Unit

/-- The source's `withLock`: `run = queue.then(fn, fn)` — the cycle runs
after the queue settles, whether it fulfilled or rejected — and
`queue = run.then(() => undefined, () => undefined)` — the stored chain
always settles fulfilled, swallowing the cycle's failure — while the
caller is handed `run`, the cycle's own outcome. -/
def withLock (fn : Cycle σ ε α) (ls : LockState σ ε) : Except ε α × LockState σ ε :=
  let run :=
    match ls.queue with
    | Except.ok _ => fn ls.sys
    | Except.error _ => fn ls.sys
  let queue2 : Except ε Unit :=
    match run.1 with
    | Except.ok _ => Except.ok ()
    | Except.error _ => Except.ok ()
  (run.1, { sys := run.2, queue := queue2 })

/-- A list of cycles enqueued through the gate in call order: each
caller's observed outcome, and the final gate state. -/
def runQueue (fns : List (Cycle σ ε α)) (ls : LockState σ ε) :
    List (Except ε α) × LockState σ ε :=
  match fns with
  | [] => ([], ls)
  | fn :: rest =>
      let r := withLock fn ls
      let rs := runQueue rest r.2
      (r.1 :: rs.1, rs.2)

/-- Modelled from the spec: `runExclusive` cycles execute strictly one at
a time in FIFO submission order, every queued cycle runs (a failed
predecessor does not stop it), and each caller observes its own cycle's
outcome. -/
def seqFIFO (fns : List (Cycle σ ε α)) (s : σ) : List (Except ε α) × σ :=
  match fns with
  | [] => ([], s)
  | fn :: rest =>
      let r := fn s
      let rs := seqFIFO rest r.2
      (r.1 :: rs.1, rs.2)

/-- Total quantity across a list of trades. -/
def sumQ (ts : List Trade) : ℤ := (ts.map Trade.quantity).sum

/-- Quantity a given id participates in on the buy side of trades. -/
def buySideSum (ts : List Trade) (x : String) : ℤ :=
  ((ts.filter (fun t => t.buyOrderId == x)).map Trade.quantity).sum

/-- Quantity a given id participates in on the sell side of trades. -/
def sellSideSum (ts : List Trade) (x : String) : ℤ :=
  ((ts.filter (fun t => t.sellOrderId == x)).map Trade.quantity).sum

/-- Total traded quantity a given order id participates in. -/
def tradedSum (ts : List Trade) (x : String) : ℤ := buySideSum ts x + sellSideSum ts x

/-- Total book quantity held under a given id on one side. -/
def qtyOf (l : List Order) (x : String) : ℤ :=
  ((l.filter (fun e => e.id == x)).map Order.quantity).sum

/-- Total remaining book quantity held under a given id. -/
def bookRemaining (b : OrderBook) (x : String) : ℤ := qtyOf b.buy x + qtyOf b.sell x

/-- Total resting sell quantity priced at or under a buy limit. -/
def qualSumSell (sells : List Order) (limit : ℚ) : ℤ :=
  ((sells.filter (fun e => decide (e.price ≤ limit))).map Order.quantity).sum

/-- Total resting buy quantity priced at or over a sell limit. -/
def qualSumBuy (buys : List Order) (limit : ℚ) : ℤ :=
  ((buys.filter (fun e => decide (limit ≤ e.price))).map Order.quantity).sum

/-- The ids present in the book, both sides. -/
def bookIds (b : OrderBook) : List String := (b.buy ++ b.sell).map Order.id

/-- The spec's book invariant: positive quantities, no duplicate ids. -/
def bookInv (b : OrderBook) : Prop :=
  (∀ e ∈ b.buy ++ b.sell, 0 < e.quantity) ∧ (bookIds b).Nodup

/-- What the running `(bestIndex, bestPrice)` accumulator of the sell
scan means for the portion of the book already visited: `none` means no
candidate qualified; `some (i, p)` points at a qualifying entry whose
price is minimal among qualifying entries, and is the earliest entry
achieving that price. -/
def ScanInvSell (limit : ℚ) (l : List Order) (best : Option (ℕ × ℚ)) : Prop :=
  (best = none → ∀ x ∈ l, ¬ x.price ≤ limit) ∧
  (∀ i p, best = some (i, p) →
    i < l.length ∧ (l.getD i dummyOrder).price = p ∧ p ≤ limit ∧
    (∀ x ∈ l, x.price ≤ limit → p ≤ x.price) ∧
    (∀ j, j < i → (l.getD j dummyOrder).price ≤ limit → p < (l.getD j dummyOrder).price))

/-- The mirror invariant for the buy scan: maximal qualifying price,
earliest entry achieving it. -/
def ScanInvBuy (limit : ℚ) (l : List Order) (best : Option (ℕ × ℚ)) : Prop :=
  (best = none → ∀ x ∈ l, ¬ limit ≤ x.price) ∧
  (∀ i p, best = some (i, p) →
    i < l.length ∧ (l.getD i dummyOrder).price = p ∧ limit ≤ p ∧
    (∀ x ∈ l, limit ≤ x.price → x.price ≤ p) ∧
    (∀ j, j < i → limit ≤ (l.getD j dummyOrder).price → (l.getD j dummyOrder).price < p))

/-- The ghost log of accepted submissions: the generated id paired with
the submitted (original) quantity, when validation passes. -/
def submitLogDelta (id : String) (req : SubmitReq) : List (String × ℤ) :=
  match validateSubmit req with
  | Except.ok (_, _, q) => [(id, q)]
  | Except.error _ => []

/-- States reachable from the empty state by submit and cancel cycles,
carrying the log of accepted submissions.  Each submit uses a freshly
generated id (the route draws random ids; the model states freshness
as: never seen among submitted ids). -/
inductive ReachableLog : SysState → List (String × ℤ) → Prop
  | init : ReachableLog emptyState []
  | step_submit (st : SysState) (log : List (String × ℤ)) (id : String)
      (req : SubmitReq) (txFails : Bool) :
      ReachableLog st log → id ∉ log.map Prod.fst →
      ReachableLog (submit st id req txFails).2 (log ++ submitLogDelta id req)
  | step_cancel (st : SysState) (log : List (String × ℤ)) (id : String) :
      ReachableLog st log → ReachableLog (cancel st id).2 log

/-- A state is reachable when some sequence of cycles produces it. -/
def Reachable (st : SysState) : Prop := ∃ log, ReachableLog st log

/-- The inductive invariant: well-formed book, every book id and trade
participant was once submitted, and each submitted order's traded total
plus its remaining book quantity never exceeds its original quantity. -/
def StrongInv (st : SysState) (log : List (String × ℤ)) : Prop :=
  bookInv st.book ∧
  (∀ x ∈ bookIds st.book, x ∈ log.map Prod.fst) ∧
  (∀ t ∈ st.trades, t.buyOrderId ∈ log.map Prod.fst ∧ t.sellOrderId ∈ log.map Prod.fst) ∧
  (∀ e ∈ log, tradedSum st.trades e.1 + bookRemaining st.book e.1 ≤ e.2)

/-! ### Theorems -/

theorem buyLoop_exit (sells : List Order) (o : Order) (h0 : ¬ 0 < o.quantity) :
    buyLoop sells o = (sells, o, [], []) := by
  rw [buyLoop.eq_def, dif_neg h0]

theorem buyLoop_none (sells : List Order) (o : Order) (h0 : 0 < o.quantity)
    (h : bestSellIdxPrice sells o.price = none) :
    buyLoop sells o = (sells, o, [], []) := by
  rw [buyLoop.eq_def, dif_pos h0]
  split
  · rfl
  · rename_i i' p' heq
    rw [h] at heq
    cases heq

theorem buyLoop_step (sells : List Order) (o : Order) (i : ℕ) (p : ℚ)
    (h0 : 0 < o.quantity) (h : bestSellIdxPrice sells o.price = some (i, p)) :
    buyLoop sells o =
      (let m := sells.getD i dummyOrder
       let tradeQty := min o.quantity m.quantity
       let o' : Order := { o with quantity := o.quantity - tradeQty }
       let sells' :=
         if m.quantity - tradeQty ≤ 0 then sells.eraseIdx i
         else sells.set i { m with quantity := m.quantity - tradeQty }
       let r := buyLoop sells' o'
       (r.1, r.2.1, (⟨o.id, m.id, m.price, tradeQty⟩ : Trade) :: r.2.2.1,
         (⟨m.id, max (m.quantity - tradeQty) 0⟩ : OrderUpdate) :: r.2.2.2)) := by
  rw [buyLoop.eq_def, dif_pos h0]
  split
  · rename_i heq
    rw [h] at heq
    cases heq
  · rename_i i' p' heq
    rw [h] at heq
    simp only [Option.some.injEq, Prod.mk.injEq] at heq
    obtain ⟨h1, h2⟩ := heq
    subst h1
    simp only [dite_eq_ite]

theorem sellLoop_exit (buys : List Order) (o : Order) (h0 : ¬ 0 < o.quantity) :
    sellLoop buys o = (buys, o, [], []) := by
  rw [sellLoop.eq_def, dif_neg h0]

theorem sellLoop_none (buys : List Order) (o : Order) (h0 : 0 < o.quantity)
    (h : bestBuyIdxPrice buys o.price = none) :
    sellLoop buys o = (buys, o, [], []) := by
  rw [sellLoop.eq_def, dif_pos h0]
  split
  · rfl
  · rename_i i' p' heq
    rw [h] at heq
    cases heq

theorem sellLoop_step (buys : List Order) (o : Order) (i : ℕ) (p : ℚ)
    (h0 : 0 < o.quantity) (h : bestBuyIdxPrice buys o.price = some (i, p)) :
    sellLoop buys o =
      (let m := buys.getD i dummyOrder
       let tradeQty := min o.quantity m.quantity
       let o' : Order := { o with quantity := o.quantity - tradeQty }
       let buys' :=
         if m.quantity - tradeQty ≤ 0 then buys.eraseIdx i
         else buys.set i { m with quantity := m.quantity - tradeQty }
       let r := sellLoop buys' o'
       (r.1, r.2.1, (⟨m.id, o.id, o.price, tradeQty⟩ : Trade) :: r.2.2.1,
         (⟨m.id, max (m.quantity - tradeQty) 0⟩ : OrderUpdate) :: r.2.2.2)) := by
  rw [sellLoop.eq_def, dif_pos h0]
  split
  · rename_i heq
    rw [h] at heq
    cases heq
  · rename_i i' p' heq
    rw [h] at heq
    simp only [Option.some.injEq, Prod.mk.injEq] at heq
    obtain ⟨h1, h2⟩ := heq
    subst h1
    simp only [dite_eq_ite]

theorem take_getD_drop (S : List α) (d : α) (i : ℕ) (h : i < S.length) :
    S.take i ++ S.getD i d :: S.drop (i + 1) = S := by
  rw [List.getD_eq_getElem S d h]
  conv_rhs => rw [← List.take_append_drop i S]
  congr 1
  exact (List.drop_eq_getElem_cons h).symm

theorem qtyOf_append (a b : List Order) (x : String) :
    qtyOf (a ++ b) x = qtyOf a x + qtyOf b x := by
  simp [qtyOf, List.filter_append]

theorem qtyOf_cons (e : Order) (l : List Order) (x : String) :
    qtyOf (e :: l) x = (if e.id == x then e.quantity else 0) + qtyOf l x := by
  by_cases h : e.id == x <;> simp [qtyOf, List.filter_cons, h]

theorem qtyOf_nil (x : String) : qtyOf [] x = 0 := rfl

theorem qtyOf_eq_zero_of_not_mem (l : List Order) (x : String)
    (h : x ∉ l.map Order.id) : qtyOf l x = 0 := by
  induction l with
  | nil => rfl
  | cons e t ih =>
      simp only [List.map_cons, List.mem_cons] at h
      push_neg at h
      rw [qtyOf_cons, ih h.2]
      simp [beq_iff_eq, Ne.symm h.1]

theorem qtyOf_nonneg (l : List Order) (x : String)
    (hpos : ∀ e ∈ l, 0 < e.quantity) : 0 ≤ qtyOf l x := by
  induction l with
  | nil => simp [qtyOf_nil]
  | cons e t ih =>
      rw [qtyOf_cons]
      have h1 := hpos e (by simp)
      have h2 := ih (fun e he => hpos e (by simp [he]))
      by_cases h : e.id == x <;> simp [h] <;> omega

theorem sellSideSum_cons (t : Trade) (ts : List Trade) (x : String) :
    sellSideSum (t :: ts) x = (if t.sellOrderId == x then t.quantity else 0) + sellSideSum ts x := by
  by_cases h : t.sellOrderId == x <;> simp [sellSideSum, List.filter_cons, h]

theorem buySideSum_cons (t : Trade) (ts : List Trade) (x : String) :
    buySideSum (t :: ts) x = (if t.buyOrderId == x then t.quantity else 0) + buySideSum ts x := by
  by_cases h : t.buyOrderId == x <;> simp [buySideSum, List.filter_cons, h]

theorem sellSideSum_append (a b : List Trade) (x : String) :
    sellSideSum (a ++ b) x = sellSideSum a x + sellSideSum b x := by
  simp [sellSideSum, List.filter_append]

theorem buySideSum_append (a b : List Trade) (x : String) :
    buySideSum (a ++ b) x = buySideSum a x + buySideSum b x := by
  simp [buySideSum, List.filter_append]

theorem tradedSum_append (a b : List Trade) (x : String) :
    tradedSum (a ++ b) x = tradedSum a x + tradedSum b x := by
  simp [tradedSum, sellSideSum_append, buySideSum_append]
  omega

theorem sellSideSum_eq_zero (ts : List Trade) (x : String)
    (h : ∀ t ∈ ts, ¬ t.sellOrderId = x) : sellSideSum ts x = 0 := by
  induction ts with
  | nil => rfl
  | cons t r ih =>
      rw [sellSideSum_cons, ih (fun t ht => h t (by simp [ht]))]
      simp [beq_iff_eq, h t (by simp)]

theorem buySideSum_eq_zero (ts : List Trade) (x : String)
    (h : ∀ t ∈ ts, ¬ t.buyOrderId = x) : buySideSum ts x = 0 := by
  induction ts with
  | nil => rfl
  | cons t r ih =>
      rw [buySideSum_cons, ih (fun t ht => h t (by simp [ht]))]
      simp [beq_iff_eq, h t (by simp)]

theorem sumQ_cons (t : Trade) (ts : List Trade) :
    sumQ (t :: ts) = t.quantity + sumQ ts := by
  simp [sumQ]

theorem qualSumSell_append (a b : List Order) (limit : ℚ) :
    qualSumSell (a ++ b) limit = qualSumSell a limit + qualSumSell b limit := by
  simp [qualSumSell, List.filter_append]

theorem qualSumSell_cons (e : Order) (l : List Order) (limit : ℚ) :
    qualSumSell (e :: l) limit
      = (if e.price ≤ limit then e.quantity else 0) + qualSumSell l limit := by
  by_cases h : e.price ≤ limit <;> simp [qualSumSell, List.filter_cons, h]

theorem qualSumSell_eq_zero (l : List Order) (limit : ℚ)
    (h : ∀ e ∈ l, ¬ e.price ≤ limit) : qualSumSell l limit = 0 := by
  induction l with
  | nil => rfl
  | cons e t ih =>
      rw [qualSumSell_cons, ih (fun e he => h e (by simp [he]))]
      simp [h e (by simp)]

theorem qualSumBuy_append (a b : List Order) (limit : ℚ) :
    qualSumBuy (a ++ b) limit = qualSumBuy a limit + qualSumBuy b limit := by
  simp [qualSumBuy, List.filter_append]

theorem qualSumBuy_cons (e : Order) (l : List Order) (limit : ℚ) :
    qualSumBuy (e :: l) limit
      = (if limit ≤ e.price then e.quantity else 0) + qualSumBuy l limit := by
  by_cases h : limit ≤ e.price <;> simp [qualSumBuy, List.filter_cons, h]

theorem qualSumBuy_eq_zero (l : List Order) (limit : ℚ)
    (h : ∀ e ∈ l, ¬ limit ≤ e.price) : qualSumBuy l limit = 0 := by
  induction l with
  | nil => rfl
  | cons e t ih =>
      rw [qualSumBuy_cons, ih (fun e he => h e (by simp [he]))]
      simp [h e (by simp)]

theorem bestSellScan_spec (limit : ℚ) :
    ∀ (suf pre : List Order) (best : Option (ℕ × ℚ)),
      ScanInvSell limit pre best →
      ScanInvSell limit (pre ++ suf) (bestSellScan limit suf pre.length best) := by
  intro suf
  induction suf with
  | nil =>
      intro pre best h
      simpa [bestSellScan] using h
  | cons c rest ih =>
      intro pre best hinv
      have key : ScanInvSell limit (pre ++ [c])
          (if c.price ≤ limit ∧ beatsBestSell c.price best
           then some (pre.length, c.price) else best) := by
        by_cases hc : c.price ≤ limit ∧ beatsBestSell c.price best
        · rw [if_pos hc]
          constructor
          · intro hn; cases hn
          · intro i p hip
            simp only [Option.some.injEq, Prod.mk.injEq] at hip
            obtain ⟨rfl, rfl⟩ := hip
            have hgetc : (pre ++ [c]).getD pre.length dummyOrder = c := by
              rw [List.getD_append_right _ _ _ _ (le_refl _)]
              simp
            refine ⟨by simp, by rw [hgetc], hc.1, ?_, ?_⟩
            · intro x hx hqx
              rcases List.mem_append.1 hx with hx | hx
              · cases hbest : best with
                | none => exact absurd hqx (hinv.1 hbest x hx)
                | some ip =>
                    obtain ⟨i0, bp⟩ := ip
                    have hfacts := hinv.2 i0 bp hbest
                    have hcb : c.price < bp := by
                      have := hc.2
                      rw [hbest] at this
                      simpa [beatsBestSell] using this
                    exact le_of_lt (lt_of_lt_of_le hcb (hfacts.2.2.2.1 x hx hqx))
              · simp at hx
                subst hx
                exact le_refl _
            · intro j hj hqj
              have hjpre : j < pre.length := hj
              have hgd : (pre ++ [c]).getD j dummyOrder = pre.getD j dummyOrder :=
                List.getD_append _ _ _ _ hjpre
              rw [hgd] at hqj ⊢
              have hmem : pre.getD j dummyOrder ∈ pre := by
                rw [List.getD_eq_getElem _ _ hjpre]
                exact List.getElem_mem hjpre
              cases hbest : best with
              | none => exact absurd hqj (hinv.1 hbest _ hmem)
              | some ip =>
                  obtain ⟨i0, bp⟩ := ip
                  have hfacts := hinv.2 i0 bp hbest
                  have hcb : c.price < bp := by
                    have := hc.2
                    rw [hbest] at this
                    simpa [beatsBestSell] using this
                  exact lt_of_lt_of_le hcb (hfacts.2.2.2.1 _ hmem hqj)
        · rw [if_neg hc]
          constructor
          · intro hn x hx
            rcases List.mem_append.1 hx with hx | hx
            · exact hinv.1 hn x hx
            · simp at hx
              subst hx
              intro hq
              exact hc ⟨hq, by simp [hn, beatsBestSell]⟩
          · intro i p hip
            have hfacts := hinv.2 i p hip
            have hipre : i < pre.length := hfacts.1
            have hgd : (pre ++ [c]).getD i dummyOrder = pre.getD i dummyOrder :=
              List.getD_append _ _ _ _ hipre
            refine ⟨by simp; omega, by rw [hgd]; exact hfacts.2.1, hfacts.2.2.1, ?_, ?_⟩
            · intro x hx hqx
              rcases List.mem_append.1 hx with hx | hx
              · exact hfacts.2.2.2.1 x hx hqx
              · simp at hx
                subst hx
                by_contra hlt
                push_neg at hlt
                exact hc ⟨hqx, by simp [hip, beatsBestSell]; linarith⟩
            · intro j hj hqj
              have hjpre : j < pre.length := lt_trans hj hipre
              have hgd' : (pre ++ [c]).getD j dummyOrder = pre.getD j dummyOrder :=
                List.getD_append _ _ _ _ hjpre
              rw [hgd'] at hqj ⊢
              exact hfacts.2.2.2.2 j hj hqj
      have hstep := ih (pre ++ [c]) _ key
      simp only [List.length_append, List.length_cons, List.length_nil] at hstep
      simpa [bestSellScan, List.append_assoc] using hstep

theorem bestSellIdxPrice_spec (sells : List Order) (limit : ℚ) :
    ScanInvSell limit sells (bestSellIdxPrice sells limit) := by
  have h0 : ScanInvSell limit [] none := by
    constructor
    · intro _ x hx; cases hx
    · intro i p hip; cases hip
  have := bestSellScan_spec limit sells [] none h0
  simpa [bestSellIdxPrice] using this

theorem bestBuyScan_spec (limit : ℚ) :
    ∀ (suf pre : List Order) (best : Option (ℕ × ℚ)),
      ScanInvBuy limit pre best →
      ScanInvBuy limit (pre ++ suf) (bestBuyScan limit suf pre.length best) := by
  intro suf
  induction suf with
  | nil =>
      intro pre best h
      simpa [bestBuyScan] using h
  | cons c rest ih =>
      intro pre best hinv
      have key : ScanInvBuy limit (pre ++ [c])
          (if limit ≤ c.price ∧ beatsBestBuy c.price best
           then some (pre.length, c.price) else best) := by
        by_cases hc : limit ≤ c.price ∧ beatsBestBuy c.price best
        · rw [if_pos hc]
          constructor
          · intro hn; cases hn
          · intro i p hip
            simp only [Option.some.injEq, Prod.mk.injEq] at hip
            obtain ⟨rfl, rfl⟩ := hip
            have hgetc : (pre ++ [c]).getD pre.length dummyOrder = c := by
              rw [List.getD_append_right _ _ _ _ (le_refl _)]
              simp
            refine ⟨by simp, by rw [hgetc], hc.1, ?_, ?_⟩
            · intro x hx hqx
              rcases List.mem_append.1 hx with hx | hx
              · cases hbest : best with
                | none => exact absurd hqx (hinv.1 hbest x hx)
                | some ip =>
                    obtain ⟨i0, bp⟩ := ip
                    have hfacts := hinv.2 i0 bp hbest
                    have hcb : bp < c.price := by
                      have := hc.2
                      rw [hbest] at this
                      simpa [beatsBestBuy] using this
                    exact le_of_lt (lt_of_le_of_lt (hfacts.2.2.2.1 x hx hqx) hcb)
              · simp at hx
                subst hx
                exact le_refl _
            · intro j hj hqj
              have hjpre : j < pre.length := hj
              have hgd : (pre ++ [c]).getD j dummyOrder = pre.getD j dummyOrder :=
                List.getD_append _ _ _ _ hjpre
              rw [hgd] at hqj ⊢
              have hmem : pre.getD j dummyOrder ∈ pre := by
                rw [List.getD_eq_getElem _ _ hjpre]
                exact List.getElem_mem hjpre
              cases hbest : best with
              | none => exact absurd hqj (hinv.1 hbest _ hmem)
              | some ip =>
                  obtain ⟨i0, bp⟩ := ip
                  have hfacts := hinv.2 i0 bp hbest
                  have hcb : bp < c.price := by
                    have := hc.2
                    rw [hbest] at this
                    simpa [beatsBestBuy] using this
                  exact lt_of_le_of_lt (hfacts.2.2.2.1 _ hmem hqj) hcb
        · rw [if_neg hc]
          constructor
          · intro hn x hx
            rcases List.mem_append.1 hx with hx | hx
            · exact hinv.1 hn x hx
            · simp at hx
              subst hx
              intro hq
              exact hc ⟨hq, by simp [hn, beatsBestBuy]⟩
          · intro i p hip
            have hfacts := hinv.2 i p hip
            have hipre : i < pre.length := hfacts.1
            have hgd : (pre ++ [c]).getD i dummyOrder = pre.getD i dummyOrder :=
              List.getD_append _ _ _ _ hipre
            refine ⟨by simp; omega, by rw [hgd]; exact hfacts.2.1, hfacts.2.2.1, ?_, ?_⟩
            · intro x hx hqx
              rcases List.mem_append.1 hx with hx | hx
              · exact hfacts.2.2.2.1 x hx hqx
              · simp at hx
                subst hx
                by_contra hlt
                push_neg at hlt
                exact hc ⟨hqx, by simp [hip, beatsBestBuy]; linarith⟩
            · intro j hj hqj
              have hjpre : j < pre.length := lt_trans hj hipre
              have hgd' : (pre ++ [c]).getD j dummyOrder = pre.getD j dummyOrder :=
                List.getD_append _ _ _ _ hjpre
              rw [hgd'] at hqj ⊢
              exact hfacts.2.2.2.2 j hj hqj
      have hstep := ih (pre ++ [c]) _ key
      simp only [List.length_append, List.length_cons, List.length_nil] at hstep
      simpa [bestBuyScan, List.append_assoc] using hstep

theorem bestBuyIdxPrice_spec (buys : List Order) (limit : ℚ) :
    ScanInvBuy limit buys (bestBuyIdxPrice buys limit) := by
  have h0 : ScanInvBuy limit [] none := by
    constructor
    · intro _ x hx; cases hx
    · intro i p hip; cases hip
  have := bestBuyScan_spec limit buys [] none h0
  simpa [bestBuyIdxPrice] using this

/-- Clean recursion principle following `buyLoop`'s call structure. -/
theorem buyLoop_rec (motive : List Order → Order → Prop)
    (hexit : ∀ S o, ¬ 0 < o.quantity → motive S o)
    (hnone : ∀ S o, 0 < o.quantity → bestSellIdxPrice S o.price = none → motive S o)
    (hstep : ∀ S o i p, 0 < o.quantity → bestSellIdxPrice S o.price = some (i, p) →
      motive
        (if (S.getD i dummyOrder).quantity
              - min o.quantity (S.getD i dummyOrder).quantity ≤ 0
          then S.eraseIdx i
          else S.set i { S.getD i dummyOrder with
            quantity := (S.getD i dummyOrder).quantity
              - min o.quantity (S.getD i dummyOrder).quantity })
        { o with quantity := o.quantity - min o.quantity (S.getD i dummyOrder).quantity } →
      motive S o) :
    ∀ S o, motive S o := by
  intro S o
  induction S, o using buyLoop.induct with
  | case1 S o h0 h => exact hnone S o h0 h
  | case2 S o h0 i p h m tq o2 s2 ih => exact hstep S o i p h0 h ih
  | case3 S o h0 => exact hexit S o h0

/-- Clean recursion principle following `sellLoop`'s call structure. -/
theorem sellLoop_rec (motive : List Order → Order → Prop)
    (hexit : ∀ B o, ¬ 0 < o.quantity → motive B o)
    (hnone : ∀ B o, 0 < o.quantity → bestBuyIdxPrice B o.price = none → motive B o)
    (hstep : ∀ B o i p, 0 < o.quantity → bestBuyIdxPrice B o.price = some (i, p) →
      motive
        (if (B.getD i dummyOrder).quantity
              - min o.quantity (B.getD i dummyOrder).quantity ≤ 0
          then B.eraseIdx i
          else B.set i { B.getD i dummyOrder with
            quantity := (B.getD i dummyOrder).quantity
              - min o.quantity (B.getD i dummyOrder).quantity })
        { o with quantity := o.quantity - min o.quantity (B.getD i dummyOrder).quantity } →
      motive B o) :
    ∀ B o, motive B o := by
  intro B o
  induction B, o using sellLoop.induct with
  | case1 B o h0 h => exact hnone B o h0 h
  | case2 B o h0 i p h m tq o2 s2 ih => exact hstep B o i p h0 h ih
  | case3 B o h0 => exact hexit B o h0

theorem buyLoop_final_facts (S : List Order) (o : Order) :
    ((buyLoop S o).2.1.id = o.id ∧ (buyLoop S o).2.1.type = o.type ∧
      (buyLoop S o).2.1.price = o.price) ∧
    sumQ (buyLoop S o).2.2.1 = o.quantity - (buyLoop S o).2.1.quantity ∧
    (0 ≤ o.quantity → 0 ≤ (buyLoop S o).2.1.quantity) := by
  induction S, o using buyLoop_rec with
  | hexit S o h0 =>
      rw [buyLoop_exit _ _ h0]
      simp [sumQ]
  | hnone S o h0 h =>
      rw [buyLoop_none _ _ h0 h]
      simp [sumQ]
  | hstep S o i p h0 h ih =>
      rw [buyLoop_step _ _ i p h0 h]
      obtain ⟨⟨ih1, ih2, ih3⟩, ih4, ih5⟩ := ih
      simp only [sumQ_cons]
      have hmin := min_le_left o.quantity (S.getD i dummyOrder).quantity
      refine ⟨⟨ih1, ih2, ih3⟩, ?_, ?_⟩
      · simp only at ih4 ⊢
        omega
      · intro hq
        have h3 := ih5 (by simp only; omega)
        simpa using h3

theorem buyLoop_qtyOf (S : List Order) (o : Order) (x : String) :
    qtyOf (buyLoop S o).1 x = qtyOf S x - sellSideSum (buyLoop S o).2.2.1 x := by
  induction S, o using buyLoop_rec with
  | hexit S o h0 => rw [buyLoop_exit _ _ h0]; simp [sellSideSum]
  | hnone S o h0 h => rw [buyLoop_none _ _ h0 h]; simp [sellSideSum]
  | hstep S o i p h0 h ih =>
      rw [buyLoop_step _ _ i p h0 h]
      simp only [sellSideSum_cons]
      have hi : i < S.length := bestSellIdxPrice_lt _ _ _ _ h
      have hdecomp := take_getD_drop S dummyOrder i hi
      have hq : qtyOf S x = qtyOf (S.take i) x
          + ((if (S.getD i dummyOrder).id == x then (S.getD i dummyOrder).quantity else 0)
            + qtyOf (S.drop (i + 1)) x) := by
        conv_lhs => rw [← hdecomp]
        rw [qtyOf_append, qtyOf_cons]
      have hmin := min_le_right o.quantity (S.getD i dummyOrder).quantity
      by_cases hg : (S.getD i dummyOrder).quantity
          - min o.quantity (S.getD i dummyOrder).quantity ≤ 0
      · rw [if_pos hg] at ih ⊢
        rw [List.eraseIdx_eq_take_drop_succ] at ih ⊢
        rw [ih, qtyOf_append, hq]
        by_cases hx : ((S.getD i dummyOrder).id == x) = true
        · rw [if_pos hx, if_pos hx]
          omega
        · rw [if_neg hx, if_neg hx]
          omega
      · rw [if_neg hg] at ih ⊢
        rw [List.set_eq_take_cons_drop _ hi] at ih ⊢
        rw [ih, qtyOf_append, qtyOf_cons, hq]
        dsimp only
        by_cases hx : ((S.getD i dummyOrder).id == x) = true
        · rw [if_pos hx, if_pos hx, if_pos hx]
          omega
        · rw [if_neg hx, if_neg hx, if_neg hx]
          omega

theorem buyLoop_map_sublist (S : List Order) (o : Order) (f : Order → β)
    (hf : ∀ a q, f { a with quantity := q } = f a) :
    ((buyLoop S o).1.map f).Sublist (S.map f) := by
  induction S, o using buyLoop_rec with
  | hexit S o h0 => rw [buyLoop_exit _ _ h0]
  | hnone S o h0 h => rw [buyLoop_none _ _ h0 h]
  | hstep S o i p h0 h ih =>
      rw [buyLoop_step _ _ i p h0 h]
      simp only
      refine List.Sublist.trans ih ?_
      have hi : i < S.length := bestSellIdxPrice_lt _ _ _ _ h
      have hdecomp := take_getD_drop S dummyOrder i hi
      by_cases hg : (S.getD i dummyOrder).quantity
          - min o.quantity (S.getD i dummyOrder).quantity ≤ 0
      · rw [if_pos hg, List.eraseIdx_eq_take_drop_succ]
        conv_rhs => rw [← hdecomp]
        simp only [List.map_append, List.map_cons]
        exact List.Sublist.append_left (List.sublist_cons_self _ _) _
      · rw [if_neg hg, List.set_eq_take_cons_drop _ hi]
        conv_rhs => rw [← hdecomp]
        simp only [List.map_append, List.map_cons, hf]
        exact List.Sublist.refl _

theorem buyLoop_pos (S : List Order) (o : Order) :
    (∀ e ∈ S, 0 < e.quantity) → ∀ e ∈ (buyLoop S o).1, 0 < e.quantity := by
  induction S, o using buyLoop_rec with
  | hexit S o h0 => rw [buyLoop_exit _ _ h0]; exact fun h => h
  | hnone S o h0 h => rw [buyLoop_none _ _ h0 h]; exact fun hp => hp
  | hstep S o i p h0 h ih =>
      intro hpos
      rw [buyLoop_step _ _ i p h0 h]
      simp only
      refine ih ?_
      have hi : i < S.length := bestSellIdxPrice_lt _ _ _ _ h
      have hdecomp := take_getD_drop S dummyOrder i hi
      by_cases hg : (S.getD i dummyOrder).quantity
          - min o.quantity (S.getD i dummyOrder).quantity ≤ 0
      · rw [if_pos hg, List.eraseIdx_eq_take_drop_succ]
        intro e he
        rcases List.mem_append.1 he with he | he
        · exact hpos e (List.mem_of_mem_take he)
        · exact hpos e (List.mem_of_mem_drop he)
      · rw [if_neg hg, List.set_eq_take_cons_drop _ hi]
        intro e he
        rcases List.mem_append.1 he with he | he
        · exact hpos e (List.mem_of_mem_take he)
        · rcases List.mem_cons.1 he with rfl | he
          · simp only
            omega
          · exact hpos e (List.mem_of_mem_drop he)

/-- Positivity of the book one matching step leaves behind (same shape
for both loops). -/
theorem stepBook_pos (S : List Order) (o : Order) (i : ℕ) (hi : i < S.length)
    (hpos : ∀ e ∈ S, 0 < e.quantity) :
    ∀ e ∈ (if (S.getD i dummyOrder).quantity
            - min o.quantity (S.getD i dummyOrder).quantity ≤ 0
        then S.eraseIdx i
        else S.set i { S.getD i dummyOrder with
          quantity := (S.getD i dummyOrder).quantity
            - min o.quantity (S.getD i dummyOrder).quantity }),
      0 < e.quantity := by
  by_cases hg : (S.getD i dummyOrder).quantity
      - min o.quantity (S.getD i dummyOrder).quantity ≤ 0
  · rw [if_pos hg, List.eraseIdx_eq_take_drop_succ]
    intro e he
    rcases List.mem_append.1 he with he | he
    · exact hpos e (List.mem_of_mem_take he)
    · exact hpos e (List.mem_of_mem_drop he)
  · rw [if_neg hg, List.set_eq_take_cons_drop _ hi]
    intro e he
    rcases List.mem_append.1 he with he | he
    · exact hpos e (List.mem_of_mem_take he)
    · rcases List.mem_cons.1 he with rfl | he
      · simp only
        omega
      · exact hpos e (List.mem_of_mem_drop he)

/-- The book one matching step leaves behind, mapped through a function
blind to quantities, is a sublist of the original book's image. -/
theorem stepBook_map_sublist (S : List Order) (o : Order) (i : ℕ) (hi : i < S.length)
    (f : Order → β) (hf : ∀ a q, f { a with quantity := q } = f a) :
    (((if (S.getD i dummyOrder).quantity
            - min o.quantity (S.getD i dummyOrder).quantity ≤ 0
        then S.eraseIdx i
        else S.set i { S.getD i dummyOrder with
          quantity := (S.getD i dummyOrder).quantity
            - min o.quantity (S.getD i dummyOrder).quantity }).map f)).Sublist (S.map f) := by
  have hdecomp := take_getD_drop S dummyOrder i hi
  by_cases hg : (S.getD i dummyOrder).quantity
      - min o.quantity (S.getD i dummyOrder).quantity ≤ 0
  · rw [if_pos hg, List.eraseIdx_eq_take_drop_succ]
    conv_rhs => rw [← hdecomp]
    simp only [List.map_append, List.map_cons]
    exact List.Sublist.append_left (List.sublist_cons_self _ _) _
  · rw [if_neg hg, List.set_eq_take_cons_drop _ hi]
    conv_rhs => rw [← hdecomp]
    simp only [List.map_append, List.map_cons, hf]
    exact List.Sublist.refl _

theorem buyLoop_trades_facts (S : List Order) (o : Order) :
    (∀ e ∈ S, 0 < e.quantity) →
    ∀ t ∈ (buyLoop S o).2.2.1,
      t.buyOrderId = o.id ∧ 0 < t.quantity ∧ t.price ≤ o.price ∧
      (t.sellOrderId, t.price) ∈ S.map (fun e => (e.id, e.price)) := by
  induction S, o using buyLoop_rec with
  | hexit S o h0 =>
      rw [buyLoop_exit _ _ h0]
      intro _ t ht
      cases ht
  | hnone S o h0 h =>
      rw [buyLoop_none _ _ h0 h]
      intro _ t ht
      cases ht
  | hstep S o i p h0 h ih =>
      intro hpos
      rw [buyLoop_step _ _ i p h0 h]
      have hi : i < S.length := bestSellIdxPrice_lt _ _ _ _ h
      have hmem : S.getD i dummyOrder ∈ S := by
        rw [List.getD_eq_getElem _ _ hi]
        exact List.getElem_mem hi
      have hspec := (bestSellIdxPrice_spec S o.price).2 i p h
      intro t ht
      rcases List.mem_cons.1 ht with rfl | ht
      · refine ⟨rfl, ?_, ?_, ?_⟩
        · have h1 := hpos _ hmem
          simp only
          omega
        · simp only
          rw [hspec.2.1]
          exact hspec.2.2.1
        · simp only
          exact List.mem_map.2 ⟨S.getD i dummyOrder, hmem, rfl⟩
      · have hrec := ih (stepBook_pos S o i hi hpos) t ht
        refine ⟨hrec.1, hrec.2.1, hrec.2.2.1, ?_⟩
        have hsub := stepBook_map_sublist S o i hi (fun e => (e.id, e.price))
          (fun a q => rfl)
        exact hsub.subset hrec.2.2.2

theorem buyLoop_updates_facts (S : List Order) (o : Order) :
    (buyLoop S o).2.2.2.length = (buyLoop S o).2.2.1.length ∧
    (∀ k, k < (buyLoop S o).2.2.2.length →
      ((buyLoop S o).2.2.2.getD k dummyUpd).id
        = ((buyLoop S o).2.2.1.getD k dummyTrade).sellOrderId) ∧
    (∀ k, k + 1 < (buyLoop S o).2.2.2.length →
      ((buyLoop S o).2.2.2.getD k dummyUpd).quantity = 0) := by
  induction S, o using buyLoop_rec with
  | hexit S o h0 =>
      rw [buyLoop_exit _ _ h0]
      refine ⟨rfl, ?_, ?_⟩ <;> intro k hk <;> simp at hk
  | hnone S o h0 h =>
      rw [buyLoop_none _ _ h0 h]
      refine ⟨rfl, ?_, ?_⟩ <;> intro k hk <;> simp at hk
  | hstep S o i p h0 h ih =>
      rw [buyLoop_step _ _ i p h0 h]
      obtain ⟨ihLen, ihPair, ihZero⟩ := ih
      dsimp only at ihLen ihPair ihZero ⊢
      refine ⟨?_, ?_, ?_⟩
      · simp only [List.length_cons]
        omega
      · intro k hk
        match k with
        | 0 => rfl
        | Nat.succ k =>
            simp only [List.length_cons] at hk
            simpa using ihPair k (by omega)
      · intro k hk
        simp only [List.length_cons] at hk
        match k with
        | 0 =>
            -- a later update exists, so the recursive call entered the loop:
            -- the incoming order still had quantity, forcing this step to
            -- have consumed the resting order completely
            have hnonempty : (buyLoop
                (if (S.getD i dummyOrder).quantity
                      - min o.quantity (S.getD i dummyOrder).quantity ≤ 0
                  then S.eraseIdx i
                  else S.set i { S.getD i dummyOrder with
                    quantity := (S.getD i dummyOrder).quantity
                      - min o.quantity (S.getD i dummyOrder).quantity })
                { o with quantity := o.quantity
                    - min o.quantity (S.getD i dummyOrder).quantity }).2.2.2 ≠ [] := by
              intro hempty
              rw [hempty] at hk
              simp at hk
            have hq0 : 0 < o.quantity - min o.quantity (S.getD i dummyOrder).quantity := by
              by_contra hq
              rw [buyLoop_exit _ _ (by simpa using hq)] at hnonempty
              exact hnonempty rfl
            have : min o.quantity (S.getD i dummyOrder).quantity
                = (S.getD i dummyOrder).quantity := by omega
            simp only [List.getD_cons_zero]
            omega
        | Nat.succ k =>
            simpa using ihZero k (by omega)

theorem buyLoop_fill (S : List Order) (o : Order) :
    0 ≤ o.quantity → (∀ e ∈ S, 0 < e.quantity) →
    o.quantity ≤ qualSumSell S o.price → (buyLoop S o).2.1.quantity = 0 := by
  induction S, o using buyLoop_rec with
  | hexit S o h0 =>
      rw [buyLoop_exit _ _ h0]
      intro h1 _ _
      simp only
      omega
  | hnone S o h0 h =>
      intro _ _ hle
      have hzero : qualSumSell S o.price = 0 :=
        qualSumSell_eq_zero _ _ ((bestSellIdxPrice_spec S o.price).1 h)
      omega
  | hstep S o i p h0 h ih =>
      intro hge hpos hle
      rw [buyLoop_step _ _ i p h0 h]
      dsimp only
      have hi : i < S.length := bestSellIdxPrice_lt _ _ _ _ h
      have hdecomp := take_getD_drop S dummyOrder i hi
      have hspec := (bestSellIdxPrice_spec S o.price).2 i p h
      have hqual : (S.getD i dummyOrder).price ≤ o.price := by
        rw [hspec.2.1]
        exact hspec.2.2.1
      have hq : qualSumSell S o.price = qualSumSell (S.take i) o.price
          + ((S.getD i dummyOrder).quantity + qualSumSell (S.drop (i + 1)) o.price) := by
        conv_lhs => rw [← hdecomp]
        rw [qualSumSell_append, qualSumSell_cons, if_pos hqual]
      have hmin1 := min_le_left o.quantity (S.getD i dummyOrder).quantity
      have hmin2 := min_le_right o.quantity (S.getD i dummyOrder).quantity
      refine ih (by dsimp only; omega) (stepBook_pos S o i hi hpos) ?_
      dsimp only
      by_cases hg : (S.getD i dummyOrder).quantity
          - min o.quantity (S.getD i dummyOrder).quantity ≤ 0
      · rw [if_pos hg, List.eraseIdx_eq_take_drop_succ, qualSumSell_append]
        omega
      · rw [if_neg hg, List.set_eq_take_cons_drop _ hi, qualSumSell_append, qualSumSell_cons]
        dsimp only
        rw [if_pos hqual]
        omega

theorem buyLoop_consumed_gone (S : List Order) (o : Order) :
    (S.map Order.id).Nodup →
    ∀ k, k + 1 < (buyLoop S o).2.2.1.length →
      ((buyLoop S o).2.2.1.getD k dummyTrade).sellOrderId ∉
        ((buyLoop S o).1.map Order.id) := by
  induction S, o using buyLoop_rec with
  | hexit S o h0 =>
      rw [buyLoop_exit _ _ h0]
      intro _ k hk
      simp at hk
  | hnone S o h0 h =>
      rw [buyLoop_none _ _ h0 h]
      intro _ k hk
      simp at hk
  | hstep S o i p h0 h ih =>
      intro hnd
      dsimp only at ih
      rw [buyLoop_step _ _ i p h0 h]
      dsimp only
      have hi : i < S.length := bestSellIdxPrice_lt _ _ _ _ h
      have hdecomp := take_getD_drop S dummyOrder i hi
      have hndstep : (((if (S.getD i dummyOrder).quantity
              - min o.quantity (S.getD i dummyOrder).quantity ≤ 0
          then S.eraseIdx i
          else S.set i { S.getD i dummyOrder with
            quantity := (S.getD i dummyOrder).quantity
              - min o.quantity (S.getD i dummyOrder).quantity }).map Order.id)).Nodup :=
        (stepBook_map_sublist S o i hi Order.id (fun a q => rfl)).nodup hnd
      intro k hk
      simp only [List.length_cons] at hk
      match k with
      | 0 =>
          simp only [List.getD_cons_zero]
          -- the tail of the trade list is nonempty, so the loop continued:
          -- this step exhausted neither the scan nor the order only by
          -- erasing the resting sell completely
          have hnonempty : (buyLoop
              (if (S.getD i dummyOrder).quantity
                    - min o.quantity (S.getD i dummyOrder).quantity ≤ 0
                then S.eraseIdx i
                else S.set i { S.getD i dummyOrder with
                  quantity := (S.getD i dummyOrder).quantity
                    - min o.quantity (S.getD i dummyOrder).quantity })
              { o with quantity := o.quantity
                  - min o.quantity (S.getD i dummyOrder).quantity }).2.2.1 ≠ [] := by
            intro hempty
            rw [hempty] at hk
            simp at hk
          have hq0 : 0 < o.quantity - min o.quantity (S.getD i dummyOrder).quantity := by
            by_contra hq
            rw [buyLoop_exit _ _ (by simpa using hq)] at hnonempty
            exact hnonempty rfl
          have hgmin : min o.quantity (S.getD i dummyOrder).quantity
              = (S.getD i dummyOrder).quantity := by
            have := min_le_left o.quantity (S.getD i dummyOrder).quantity
            have := min_le_right o.quantity (S.getD i dummyOrder).quantity
            omega
          have hg : (S.getD i dummyOrder).quantity
              - min o.quantity (S.getD i dummyOrder).quantity ≤ 0 := by omega
          -- the resting order was erased; its id occurs nowhere else
          have hgone : (S.getD i dummyOrder).id ∉ ((S.eraseIdx i).map Order.id) := by
            rw [List.eraseIdx_eq_take_drop_succ, List.map_append]
            have hnd2 := hnd
            conv at hnd2 => rw [← hdecomp]
            rw [List.map_append, List.map_cons] at hnd2
            rw [List.nodup_append] at hnd2
            have hdis := hnd2.2.2
            have hnc := List.nodup_cons.1 hnd2.2.1
            intro hmem
            rcases List.mem_append.1 hmem with hmem | hmem
            · exact hdis hmem (by simp)
            · exact hnc.1 hmem
          have hsub : (((buyLoop
              (if (S.getD i dummyOrder).quantity
                    - min o.quantity (S.getD i dummyOrder).quantity ≤ 0
                then S.eraseIdx i
                else S.set i { S.getD i dummyOrder with
                  quantity := (S.getD i dummyOrder).quantity
                    - min o.quantity (S.getD i dummyOrder).quantity })
              { o with quantity := o.quantity
                  - min o.quantity (S.getD i dummyOrder).quantity }).1).map Order.id).Sublist
              ((S.eraseIdx i).map Order.id) := by
            rw [if_pos hg]
            exact buyLoop_map_sublist _ _ Order.id (fun a q => rfl)
          exact fun hmem => hgone (hsub.subset hmem)
      | Nat.succ k =>
          simpa using ih hndstep k (by omega)

theorem sellLoop_final_facts (B : List Order) (o : Order) :
    ((sellLoop B o).2.1.id = o.id ∧ (sellLoop B o).2.1.type = o.type ∧
      (sellLoop B o).2.1.price = o.price) ∧
    sumQ (sellLoop B o).2.2.1 = o.quantity - (sellLoop B o).2.1.quantity ∧
    (0 ≤ o.quantity → 0 ≤ (sellLoop B o).2.1.quantity) := by
  induction B, o using sellLoop_rec with
  | hexit B o h0 =>
      rw [sellLoop_exit _ _ h0]
      simp [sumQ]
  | hnone B o h0 h =>
      rw [sellLoop_none _ _ h0 h]
      simp [sumQ]
  | hstep B o i p h0 h ih =>
      rw [sellLoop_step _ _ i p h0 h]
      obtain ⟨⟨ih1, ih2, ih3⟩, ih4, ih5⟩ := ih
      simp only [sumQ_cons]
      have hmin := min_le_left o.quantity (B.getD i dummyOrder).quantity
      refine ⟨⟨ih1, ih2, ih3⟩, ?_, ?_⟩
      · simp only at ih4 ⊢
        omega
      · intro hq
        have h3 := ih5 (by simp only; omega)
        simpa using h3

theorem sellLoop_qtyOf (B : List Order) (o : Order) (x : String) :
    qtyOf (sellLoop B o).1 x = qtyOf B x - buySideSum (sellLoop B o).2.2.1 x := by
  induction B, o using sellLoop_rec with
  | hexit B o h0 => rw [sellLoop_exit _ _ h0]; simp [buySideSum]
  | hnone B o h0 h => rw [sellLoop_none _ _ h0 h]; simp [buySideSum]
  | hstep B o i p h0 h ih =>
      rw [sellLoop_step _ _ i p h0 h]
      simp only [buySideSum_cons]
      have hi : i < B.length := bestBuyIdxPrice_lt _ _ _ _ h
      have hdecomp := take_getD_drop B dummyOrder i hi
      have hq : qtyOf B x = qtyOf (B.take i) x
          + ((if (B.getD i dummyOrder).id == x then (B.getD i dummyOrder).quantity else 0)
            + qtyOf (B.drop (i + 1)) x) := by
        conv_lhs => rw [← hdecomp]
        rw [qtyOf_append, qtyOf_cons]
      have hmin := min_le_right o.quantity (B.getD i dummyOrder).quantity
      by_cases hg : (B.getD i dummyOrder).quantity
          - min o.quantity (B.getD i dummyOrder).quantity ≤ 0
      · rw [if_pos hg] at ih ⊢
        rw [List.eraseIdx_eq_take_drop_succ] at ih ⊢
        rw [ih, qtyOf_append, hq]
        by_cases hx : ((B.getD i dummyOrder).id == x) = true
        · rw [if_pos hx, if_pos hx]
          omega
        · rw [if_neg hx, if_neg hx]
          omega
      · rw [if_neg hg] at ih ⊢
        rw [List.set_eq_take_cons_drop _ hi] at ih ⊢
        rw [ih, qtyOf_append, qtyOf_cons, hq]
        dsimp only
        by_cases hx : ((B.getD i dummyOrder).id == x) = true
        · rw [if_pos hx, if_pos hx, if_pos hx]
          omega
        · rw [if_neg hx, if_neg hx, if_neg hx]
          omega

theorem sellLoop_map_sublist (B : List Order) (o : Order) (f : Order → β)
    (hf : ∀ a q, f { a with quantity := q } = f a) :
    ((sellLoop B o).1.map f).Sublist (B.map f) := by
  induction B, o using sellLoop_rec with
  | hexit B o h0 => rw [sellLoop_exit _ _ h0]
  | hnone B o h0 h => rw [sellLoop_none _ _ h0 h]
  | hstep B o i p h0 h ih =>
      rw [sellLoop_step _ _ i p h0 h]
      simp only
      refine List.Sublist.trans ih ?_
      have hi : i < B.length := bestBuyIdxPrice_lt _ _ _ _ h
      exact stepBook_map_sublist B o i hi f hf

theorem sellLoop_pos (B : List Order) (o : Order) :
    (∀ e ∈ B, 0 < e.quantity) → ∀ e ∈ (sellLoop B o).1, 0 < e.quantity := by
  induction B, o using sellLoop_rec with
  | hexit B o h0 => rw [sellLoop_exit _ _ h0]; exact fun h => h
  | hnone B o h0 h => rw [sellLoop_none _ _ h0 h]; exact fun hp => hp
  | hstep B o i p h0 h ih =>
      intro hpos
      rw [sellLoop_step _ _ i p h0 h]
      simp only
      have hi : i < B.length := bestBuyIdxPrice_lt _ _ _ _ h
      exact ih (stepBook_pos B o i hi hpos)

theorem sellLoop_trades_facts (B : List Order) (o : Order) :
    (∀ e ∈ B, 0 < e.quantity) →
    ∀ t ∈ (sellLoop B o).2.2.1,
      t.sellOrderId = o.id ∧ 0 < t.quantity ∧ t.price = o.price ∧
      t.buyOrderId ∈ B.map Order.id := by
  induction B, o using sellLoop_rec with
  | hexit B o h0 =>
      rw [sellLoop_exit _ _ h0]
      intro _ t ht
      cases ht
  | hnone B o h0 h =>
      rw [sellLoop_none _ _ h0 h]
      intro _ t ht
      cases ht
  | hstep B o i p h0 h ih =>
      intro hpos
      rw [sellLoop_step _ _ i p h0 h]
      have hi : i < B.length := bestBuyIdxPrice_lt _ _ _ _ h
      have hmem : B.getD i dummyOrder ∈ B := by
        rw [List.getD_eq_getElem _ _ hi]
        exact List.getElem_mem hi
      intro t ht
      rcases List.mem_cons.1 ht with rfl | ht
      · refine ⟨rfl, ?_, rfl, ?_⟩
        · have h1 := hpos _ hmem
          simp only
          omega
        · simp only
          exact List.mem_map.2 ⟨B.getD i dummyOrder, hmem, rfl⟩
      · have hrec := ih (stepBook_pos B o i hi hpos) t ht
        refine ⟨hrec.1, hrec.2.1, hrec.2.2.1, ?_⟩
        have hsub := stepBook_map_sublist B o i hi Order.id (fun a q => rfl)
        exact hsub.subset hrec.2.2.2

theorem sellLoop_updates_facts (B : List Order) (o : Order) :
    (sellLoop B o).2.2.2.length = (sellLoop B o).2.2.1.length ∧
    (∀ k, k < (sellLoop B o).2.2.2.length →
      ((sellLoop B o).2.2.2.getD k dummyUpd).id
        = ((sellLoop B o).2.2.1.getD k dummyTrade).buyOrderId) ∧
    (∀ k, k + 1 < (sellLoop B o).2.2.2.length →
      ((sellLoop B o).2.2.2.getD k dummyUpd).quantity = 0) := by
  induction B, o using sellLoop_rec with
  | hexit B o h0 =>
      rw [sellLoop_exit _ _ h0]
      refine ⟨rfl, ?_, ?_⟩ <;> intro k hk <;> simp at hk
  | hnone B o h0 h =>
      rw [sellLoop_none _ _ h0 h]
      refine ⟨rfl, ?_, ?_⟩ <;> intro k hk <;> simp at hk
  | hstep B o i p h0 h ih =>
      rw [sellLoop_step _ _ i p h0 h]
      obtain ⟨ihLen, ihPair, ihZero⟩ := ih
      dsimp only at ihLen ihPair ihZero ⊢
      refine ⟨?_, ?_, ?_⟩
      · simp only [List.length_cons]
        omega
      · intro k hk
        match k with
        | 0 => rfl
        | Nat.succ k =>
            simp only [List.length_cons] at hk
            simpa using ihPair k (by omega)
      · intro k hk
        simp only [List.length_cons] at hk
        match k with
        | 0 =>
            have hnonempty : (sellLoop
                (if (B.getD i dummyOrder).quantity
                      - min o.quantity (B.getD i dummyOrder).quantity ≤ 0
                  then B.eraseIdx i
                  else B.set i { B.getD i dummyOrder with
                    quantity := (B.getD i dummyOrder).quantity
                      - min o.quantity (B.getD i dummyOrder).quantity })
                { o with quantity := o.quantity
                    - min o.quantity (B.getD i dummyOrder).quantity }).2.2.2 ≠ [] := by
              intro hempty
              rw [hempty] at hk
              simp at hk
            have hq0 : 0 < o.quantity - min o.quantity (B.getD i dummyOrder).quantity := by
              by_contra hq
              rw [sellLoop_exit _ _ (by simpa using hq)] at hnonempty
              exact hnonempty rfl
            have : min o.quantity (B.getD i dummyOrder).quantity
                = (B.getD i dummyOrder).quantity := by omega
            simp only [List.getD_cons_zero]
            omega
        | Nat.succ k =>
            simpa using ihZero k (by omega)

theorem sellLoop_fill (B : List Order) (o : Order) :
    0 ≤ o.quantity → (∀ e ∈ B, 0 < e.quantity) →
    o.quantity ≤ qualSumBuy B o.price → (sellLoop B o).2.1.quantity = 0 := by
  induction B, o using sellLoop_rec with
  | hexit B o h0 =>
      rw [sellLoop_exit _ _ h0]
      intro h1 _ _
      simp only
      omega
  | hnone B o h0 h =>
      intro _ _ hle
      have hzero : qualSumBuy B o.price = 0 :=
        qualSumBuy_eq_zero _ _ ((bestBuyIdxPrice_spec B o.price).1 h)
      omega
  | hstep B o i p h0 h ih =>
      intro hge hpos hle
      rw [sellLoop_step _ _ i p h0 h]
      dsimp only
      have hi : i < B.length := bestBuyIdxPrice_lt _ _ _ _ h
      have hdecomp := take_getD_drop B dummyOrder i hi
      have hspec := (bestBuyIdxPrice_spec B o.price).2 i p h
      have hqual : o.price ≤ (B.getD i dummyOrder).price := by
        rw [hspec.2.1]
        exact hspec.2.2.1
      have hq : qualSumBuy B o.price = qualSumBuy (B.take i) o.price
          + ((B.getD i dummyOrder).quantity + qualSumBuy (B.drop (i + 1)) o.price) := by
        conv_lhs => rw [← hdecomp]
        rw [qualSumBuy_append, qualSumBuy_cons, if_pos hqual]
      have hmin1 := min_le_left o.quantity (B.getD i dummyOrder).quantity
      have hmin2 := min_le_right o.quantity (B.getD i dummyOrder).quantity
      refine ih (by dsimp only; omega) (stepBook_pos B o i hi hpos) ?_
      dsimp only
      by_cases hg : (B.getD i dummyOrder).quantity
          - min o.quantity (B.getD i dummyOrder).quantity ≤ 0
      · rw [if_pos hg, List.eraseIdx_eq_take_drop_succ, qualSumBuy_append]
        omega
      · rw [if_neg hg, List.set_eq_take_cons_drop _ hi, qualSumBuy_append, qualSumBuy_cons]
        dsimp only
        rw [if_pos hqual]
        omega

theorem sellLoop_consumed_gone (B : List Order) (o : Order) :
    (B.map Order.id).Nodup →
    ∀ k, k + 1 < (sellLoop B o).2.2.1.length →
      ((sellLoop B o).2.2.1.getD k dummyTrade).buyOrderId ∉
        ((sellLoop B o).1.map Order.id) := by
  induction B, o using sellLoop_rec with
  | hexit B o h0 =>
      rw [sellLoop_exit _ _ h0]
      intro _ k hk
      simp at hk
  | hnone B o h0 h =>
      rw [sellLoop_none _ _ h0 h]
      intro _ k hk
      simp at hk
  | hstep B o i p h0 h ih =>
      intro hnd
      dsimp only at ih
      rw [sellLoop_step _ _ i p h0 h]
      dsimp only
      have hi : i < B.length := bestBuyIdxPrice_lt _ _ _ _ h
      have hdecomp := take_getD_drop B dummyOrder i hi
      have hndstep : (((if (B.getD i dummyOrder).quantity
              - min o.quantity (B.getD i dummyOrder).quantity ≤ 0
          then B.eraseIdx i
          else B.set i { B.getD i dummyOrder with
            quantity := (B.getD i dummyOrder).quantity
              - min o.quantity (B.getD i dummyOrder).quantity }).map Order.id)).Nodup :=
        (stepBook_map_sublist B o i hi Order.id (fun a q => rfl)).nodup hnd
      intro k hk
      simp only [List.length_cons] at hk
      match k with
      | 0 =>
          simp only [List.getD_cons_zero]
          have hnonempty : (sellLoop
              (if (B.getD i dummyOrder).quantity
                    - min o.quantity (B.getD i dummyOrder).quantity ≤ 0
                then B.eraseIdx i
                else B.set i { B.getD i dummyOrder with
                  quantity := (B.getD i dummyOrder).quantity
                    - min o.quantity (B.getD i dummyOrder).quantity })
              { o with quantity := o.quantity
                  - min o.quantity (B.getD i dummyOrder).quantity }).2.2.1 ≠ [] := by
            intro hempty
            rw [hempty] at hk
            simp at hk
          have hq0 : 0 < o.quantity - min o.quantity (B.getD i dummyOrder).quantity := by
            by_contra hq
            rw [sellLoop_exit _ _ (by simpa using hq)] at hnonempty
            exact hnonempty rfl
          have hgmin : min o.quantity (B.getD i dummyOrder).quantity
              = (B.getD i dummyOrder).quantity := by
            have := min_le_left o.quantity (B.getD i dummyOrder).quantity
            have := min_le_right o.quantity (B.getD i dummyOrder).quantity
            omega
          have hg : (B.getD i dummyOrder).quantity
              - min o.quantity (B.getD i dummyOrder).quantity ≤ 0 := by omega
          have hgone : (B.getD i dummyOrder).id ∉ ((B.eraseIdx i).map Order.id) := by
            rw [List.eraseIdx_eq_take_drop_succ, List.map_append]
            have hnd2 := hnd
            conv at hnd2 => rw [← hdecomp]
            rw [List.map_append, List.map_cons] at hnd2
            rw [List.nodup_append] at hnd2
            have hdis := hnd2.2.2
            have hnc := List.nodup_cons.1 hnd2.2.1
            intro hmem
            rcases List.mem_append.1 hmem with hmem | hmem
            · exact hdis hmem (by simp)
            · exact hnc.1 hmem
          have hsub : (((sellLoop
              (if (B.getD i dummyOrder).quantity
                    - min o.quantity (B.getD i dummyOrder).quantity ≤ 0
                then B.eraseIdx i
                else B.set i { B.getD i dummyOrder with
                  quantity := (B.getD i dummyOrder).quantity
                    - min o.quantity (B.getD i dummyOrder).quantity })
              { o with quantity := o.quantity
                  - min o.quantity (B.getD i dummyOrder).quantity }).1).map Order.id).Sublist
              ((B.eraseIdx i).map Order.id) := by
            rw [if_pos hg]
            exact sellLoop_map_sublist _ _ Order.id (fun a q => rfl)
          exact fun hmem => hgone (hsub.subset hmem)
      | Nat.succ k =>
          simpa using ih hndstep k (by omega)

theorem buySideSum_eq_sumQ (ts : List Trade) (x : String)
    (h : ∀ t ∈ ts, t.buyOrderId = x) : buySideSum ts x = sumQ ts := by
  induction ts with
  | nil => rfl
  | cons t r ih =>
      rw [buySideSum_cons, sumQ_cons, ih (fun t ht => h t (by simp [ht]))]
      simp [beq_iff_eq, h t (by simp)]

theorem sellSideSum_eq_sumQ (ts : List Trade) (x : String)
    (h : ∀ t ∈ ts, t.sellOrderId = x) : sellSideSum ts x = sumQ ts := by
  induction ts with
  | nil => rfl
  | cons t r ih =>
      rw [sellSideSum_cons, sumQ_cons, ih (fun t ht => h t (by simp [ht]))]
      simp [beq_iff_eq, h t (by simp)]

theorem qtyOf_push (l : List Order) (e : Order) (x : String) :
    qtyOf (l ++ [e]) x = qtyOf l x + (if e.id == x then e.quantity else 0) := by
  rw [qtyOf_append, qtyOf_cons, qtyOf_nil]
  omega

theorem qtyOf_le_of_sublist (l' l : List Order) (x : String) (h : l'.Sublist l)
    (hpos : ∀ e ∈ l, 0 ≤ e.quantity) : qtyOf l' x ≤ qtyOf l x := by
  induction h with
  | slnil => exact le_refl _
  | cons e hsub ih =>
      rename_i l1 l2
      rw [qtyOf_cons]
      have he := hpos e (by simp)
      have hr := ih (fun a ha => hpos a (by simp [ha]))
      by_cases hx : (e.id == x) = true <;> simp only [hx, if_true, if_false] <;> omega
  | cons₂ e hsub ih =>
      rename_i l1 l2
      rw [qtyOf_cons, qtyOf_cons]
      have hr := ih (fun a ha => hpos a (by simp [ha]))
      omega

theorem nodup_push (A B B' : List String) (x : String) (hnd : (A ++ B).Nodup)
    (hsub : B'.Sublist B) (hx : x ∉ A ++ B) : ((A ++ [x]) ++ B').Nodup := by
  have hnd' : (A ++ B').Nodup := ((hsub.append_left A).nodup hnd)
  rw [List.nodup_append] at hnd'
  rw [List.append_assoc, List.singleton_append, List.nodup_append, List.nodup_cons]
  simp only [List.mem_append, not_or] at hx
  refine ⟨hnd'.1, ⟨fun hmem => hx.2 (hsub.subset hmem), hnd'.2.1⟩, ?_⟩
  intro a ha hmem
  rcases List.mem_cons.1 hmem with rfl | hmem
  · exact hx.1 ha
  · exact hnd'.2.2 ha hmem

theorem removeFromBook_sublists (b : OrderBook) (id : String) :
    (removeFromBook b id).buy.Sublist b.buy ∧ (removeFromBook b id).sell.Sublist b.sell := by
  unfold removeFromBook
  constructor
  · cases b.buy.findIdx? (fun o => o.id == id) with
    | none => exact List.Sublist.refl _
    | some i => exact List.eraseIdx_sublist _ _
  · cases b.sell.findIdx? (fun o => o.id == id) with
    | none => exact List.Sublist.refl _
    | some i => exact List.eraseIdx_sublist _ _

theorem validateSubmit_ok (req : SubmitReq) (side : Side) (p : ℚ) (qn : ℤ)
    (hval : validateSubmit req = Except.ok (side, p, qn)) : 0 < qn ∧ 0 < p := by
  unfold validateSubmit at hval
  split at hval
  · cases hval
  · split at hval
    · split at hval
      · rename_i pq qq
        split at hval
        · cases hval
        · rename_i hcond
          push_neg at hcond
          simp only [Except.ok.injEq, Prod.mk.injEq] at hval
          obtain ⟨hside, hp, hq⟩ := hval
          subst hp
          subst hq
          refine ⟨?_, hcond.2.2⟩
          exact Rat.num_pos.2 hcond.2.1
      · cases hval
    · cases hval

/-- Everything one `processOrder` call guarantees at the book level,
given a well-formed book and a fresh incoming id: the invariant is kept,
no ids appear from nowhere, trades only involve the incoming order and
resting orders, and traded quantity plus remaining book quantity is
conserved for every id. -/
theorem processOrder_summary (book : OrderBook) (o : Order)
    (hq : 0 < o.quantity) (hinv : bookInv book) (hfresh : o.id ∉ bookIds book) :
    bookInv (processOrder book o).orderBook ∧
    (∀ x ∈ bookIds (processOrder book o).orderBook, x = o.id ∨ x ∈ bookIds book) ∧
    (∀ t ∈ (processOrder book o).newTrades,
      (t.buyOrderId = o.id ∨ t.buyOrderId ∈ bookIds book) ∧
      (t.sellOrderId = o.id ∨ t.sellOrderId ∈ bookIds book)) ∧
    tradedSum (processOrder book o).newTrades o.id
      + bookRemaining (processOrder book o).orderBook o.id = o.quantity ∧
    (∀ x, x ≠ o.id → tradedSum (processOrder book o).newTrades x
      + bookRemaining (processOrder book o).orderBook x = bookRemaining book x) := by
  have hids : bookIds book = book.buy.map Order.id ++ book.sell.map Order.id := by
    simp [bookIds]
  have hfreshBuy : o.id ∉ book.buy.map Order.id := by
    rw [hids] at hfresh
    exact fun hm => hfresh (List.mem_append.2 (Or.inl hm))
  have hfreshSell : o.id ∉ book.sell.map Order.id := by
    rw [hids] at hfresh
    exact fun hm => hfresh (List.mem_append.2 (Or.inr hm))
  have hposBuy : ∀ e ∈ book.buy, 0 < e.quantity :=
    fun e he => hinv.1 e (List.mem_append.2 (Or.inl he))
  have hposSell : ∀ e ∈ book.sell, 0 < e.quantity :=
    fun e he => hinv.1 e (List.mem_append.2 (Or.inr he))
  have hnd : (book.buy.map Order.id ++ book.sell.map Order.id).Nodup := by
    rw [← hids]
    exact hinv.2
  cases ht : o.type with
  | buy =>
      simp only [processOrder, ht]
      have hfin := buyLoop_final_facts book.sell o
      have htr := buyLoop_trades_facts book.sell o hposSell
      have hsubID := buyLoop_map_sublist book.sell o Order.id (fun a q => rfl)
      have hfinid : (buyLoop book.sell o).2.1.id = o.id := hfin.1.1
      have hfinge : 0 ≤ (buyLoop book.sell o).2.1.quantity := hfin.2.2 (le_of_lt hq)
      have hsumq : sumQ (buyLoop book.sell o).2.2.1
          = o.quantity - (buyLoop book.sell o).2.1.quantity := hfin.2.1
      have hsellid : ∀ t ∈ (buyLoop book.sell o).2.2.1,
          t.sellOrderId ∈ book.sell.map Order.id := by
        intro t htmem
        obtain ⟨e, hemem, hepair⟩ := List.mem_map.1 (htr t htmem).2.2.2
        have : e.id = t.sellOrderId := congrArg Prod.fst hepair
        exact List.mem_map.2 ⟨e, hemem, this⟩
      have hbuyid : ∀ t ∈ (buyLoop book.sell o).2.2.1, t.buyOrderId = o.id :=
        fun t htmem => (htr t htmem).1
      constructor
      · -- book invariant
        constructor
        · intro e he
          rcases List.mem_append.1 he with he | he
          · by_cases hpush : 0 < (buyLoop book.sell o).2.1.quantity
            · rw [if_pos hpush] at he
              rcases List.mem_append.1 he with he | he
              · exact hposBuy e he
              · rcases List.mem_cons.1 he with rfl | he
                · exact hpush
                · cases he
            · rw [if_neg hpush] at he
              exact hposBuy e he
          · exact buyLoop_pos book.sell o hposSell e he
        · show (bookIds _).Nodup
          simp only [bookIds, List.map_append]
          by_cases hpush : 0 < (buyLoop book.sell o).2.1.quantity
          · rw [if_pos hpush]
            simp only [List.map_append, List.map_cons, List.map_nil]
            have : book.buy.map Order.id ++ [(buyLoop book.sell o).2.1.id]
                = book.buy.map Order.id ++ [o.id] := by rw [hfinid]
            rw [this]
            refine nodup_push _ _ _ _ hnd hsubID ?_
            rw [← hids]
            exact hfresh
          · rw [if_neg hpush]
            exact (hsubID.append_left _).nodup hnd
      constructor
      · -- no new ids
        intro x hx
        simp only [bookIds, List.map_append] at hx
        rcases List.mem_append.1 hx with hx | hx
        · by_cases hpush : 0 < (buyLoop book.sell o).2.1.quantity
          · rw [if_pos hpush] at hx
            simp only [List.map_append, List.map_cons, List.map_nil] at hx
            rcases List.mem_append.1 hx with hx | hx
            · exact Or.inr (by rw [hids]; exact List.mem_append.2 (Or.inl hx))
            · rcases List.mem_cons.1 hx with rfl | hx
              · exact Or.inl hfinid
              · cases hx
          · rw [if_neg hpush] at hx
            exact Or.inr (by rw [hids]; exact List.mem_append.2 (Or.inl hx))
        · have := hsubID.subset hx
          exact Or.inr (by rw [hids]; exact List.mem_append.2 (Or.inr this))
      constructor
      · -- trade ids
        intro t htmem
        refine ⟨Or.inl (hbuyid t htmem), Or.inr ?_⟩
        rw [hids]
        exact List.mem_append.2 (Or.inr (hsellid t htmem))
      constructor
      · -- conservation at the incoming id
        have hbs : buySideSum (buyLoop book.sell o).2.2.1 o.id
            = sumQ (buyLoop book.sell o).2.2.1 :=
          buySideSum_eq_sumQ _ _ hbuyid
        have hss : sellSideSum (buyLoop book.sell o).2.2.1 o.id = 0 := by
          refine sellSideSum_eq_zero _ _ ?_
          intro t htmem heq
          exact hfreshSell (heq ▸ hsellid t htmem)
        have hqbuy : qtyOf book.buy o.id = 0 := qtyOf_eq_zero_of_not_mem _ _ hfreshBuy
        have hqsell : qtyOf book.sell o.id = 0 := qtyOf_eq_zero_of_not_mem _ _ hfreshSell
        have hqsell' := buyLoop_qtyOf book.sell o o.id
        simp only [tradedSum, bookRemaining]
        rw [hbs, hss, hsumq, hqsell', hqsell, hss]
        by_cases hpush : 0 < (buyLoop book.sell o).2.1.quantity
        · rw [if_pos hpush, qtyOf_push, hqbuy]
          rw [hfinid]
          simp only [beq_self_eq_true, if_true]
          omega
        · rw [if_neg hpush, hqbuy]
          omega
      · -- conservation at every other id
        intro x hxne
        have hbs : buySideSum (buyLoop book.sell o).2.2.1 x = 0 := by
          refine buySideSum_eq_zero _ _ ?_
          intro t htmem heq
          apply hxne
          rw [← heq]
          exact hbuyid t htmem
        have hqsell' := buyLoop_qtyOf book.sell o x
        simp only [tradedSum, bookRemaining]
        rw [hbs, hqsell']
        by_cases hpush : 0 < (buyLoop book.sell o).2.1.quantity
        · rw [if_pos hpush, qtyOf_push]
          rw [hfinid]
          simp only [beq_iff_eq, if_neg (Ne.symm hxne)]
          omega
        · rw [if_neg hpush]
          omega
  | sell =>
      simp only [processOrder, ht]
      have hfin := sellLoop_final_facts book.buy o
      have htr := sellLoop_trades_facts book.buy o hposBuy
      have hsubID := sellLoop_map_sublist book.buy o Order.id (fun a q => rfl)
      have hfinid : (sellLoop book.buy o).2.1.id = o.id := hfin.1.1
      have hfinge : 0 ≤ (sellLoop book.buy o).2.1.quantity := hfin.2.2 (le_of_lt hq)
      have hsumq : sumQ (sellLoop book.buy o).2.2.1
          = o.quantity - (sellLoop book.buy o).2.1.quantity := hfin.2.1
      have hbuyid : ∀ t ∈ (sellLoop book.buy o).2.2.1,
          t.buyOrderId ∈ book.buy.map Order.id :=
        fun t htmem => (htr t htmem).2.2.2
      have hsellid : ∀ t ∈ (sellLoop book.buy o).2.2.1, t.sellOrderId = o.id :=
        fun t htmem => (htr t htmem).1
      constructor
      · constructor
        · intro e he
          rcases List.mem_append.1 he with he | he
          · exact sellLoop_pos book.buy o hposBuy e he
          · by_cases hpush : 0 < (sellLoop book.buy o).2.1.quantity
            · rw [if_pos hpush] at he
              rcases List.mem_append.1 he with he | he
              · exact hposSell e he
              · rcases List.mem_cons.1 he with rfl | he
                · exact hpush
                · cases he
            · rw [if_neg hpush] at he
              exact hposSell e he
        · show (bookIds _).Nodup
          simp only [bookIds, List.map_append]
          by_cases hpush : 0 < (sellLoop book.buy o).2.1.quantity
          · rw [if_pos hpush]
            simp only [List.map_append, List.map_cons, List.map_nil]
            have hswap : ((sellLoop book.buy o).1.map Order.id
                ++ (book.sell.map Order.id ++ [(sellLoop book.buy o).2.1.id])).Nodup
                ↔ (((sellLoop book.buy o).1.map Order.id
                  ++ book.sell.map Order.id) ++ [o.id]).Nodup := by
              rw [hfinid, List.append_assoc]
            rw [hswap]
            have hnd2 : ((sellLoop book.buy o).1.map Order.id
                ++ book.sell.map Order.id).Nodup :=
              (hsubID.append_right _).nodup hnd
            rw [List.nodup_append]
            refine ⟨hnd2, List.nodup_singleton _, ?_⟩
            intro a ha hmem
            rcases List.mem_singleton.1 hmem with rfl
            rcases List.mem_append.1 ha with ha | ha
            · exact hfreshBuy (hsubID.subset ha)
            · exact hfreshSell ha
          · rw [if_neg hpush]
            exact (hsubID.append_right _).nodup hnd
      constructor
      · intro x hx
        simp only [bookIds, List.map_append] at hx
        rcases List.mem_append.1 hx with hx | hx
        · have := hsubID.subset hx
          exact Or.inr (by rw [hids]; exact List.mem_append.2 (Or.inl this))
        · by_cases hpush : 0 < (sellLoop book.buy o).2.1.quantity
          · rw [if_pos hpush] at hx
            simp only [List.map_append, List.map_cons, List.map_nil] at hx
            rcases List.mem_append.1 hx with hx | hx
            · exact Or.inr (by rw [hids]; exact List.mem_append.2 (Or.inr hx))
            · rcases List.mem_cons.1 hx with rfl | hx
              · exact Or.inl hfinid
              · cases hx
          · rw [if_neg hpush] at hx
            exact Or.inr (by rw [hids]; exact List.mem_append.2 (Or.inr hx))
      constructor
      · intro t htmem
        refine ⟨Or.inr ?_, Or.inl (hsellid t htmem)⟩
        rw [hids]
        exact List.mem_append.2 (Or.inl (hbuyid t htmem))
      constructor
      · have hss : sellSideSum (sellLoop book.buy o).2.2.1 o.id
            = sumQ (sellLoop book.buy o).2.2.1 :=
          sellSideSum_eq_sumQ _ _ hsellid
        have hbs : buySideSum (sellLoop book.buy o).2.2.1 o.id = 0 := by
          refine buySideSum_eq_zero _ _ ?_
          intro t htmem heq
          exact hfreshBuy (heq ▸ hbuyid t htmem)
        have hqbuy : qtyOf book.buy o.id = 0 := qtyOf_eq_zero_of_not_mem _ _ hfreshBuy
        have hqsell : qtyOf book.sell o.id = 0 := qtyOf_eq_zero_of_not_mem _ _ hfreshSell
        have hqbuy' := sellLoop_qtyOf book.buy o o.id
        simp only [tradedSum, bookRemaining]
        rw [hss, hbs, hsumq, hqbuy', hqbuy, hbs]
        by_cases hpush : 0 < (sellLoop book.buy o).2.1.quantity
        · rw [if_pos hpush, qtyOf_push, hqsell]
          rw [hfinid]
          simp only [beq_self_eq_true, if_true]
          omega
        · rw [if_neg hpush, hqsell]
          omega
      · intro x hxne
        have hss : sellSideSum (sellLoop book.buy o).2.2.1 x = 0 := by
          refine sellSideSum_eq_zero _ _ ?_
          intro t htmem heq
          apply hxne
          rw [← heq]
          exact hsellid t htmem
        have hqbuy' := sellLoop_qtyOf book.buy o x
        simp only [tradedSum, bookRemaining]
        rw [hss, hqbuy']
        by_cases hpush : 0 < (sellLoop book.buy o).2.1.quantity
        · rw [if_pos hpush, qtyOf_push]
          rw [hfinid]
          simp only [beq_iff_eq, if_neg (Ne.symm hxne)]
          omega
        · rw [if_neg hpush]
          omega

theorem submit_validation_err (st : SysState) (id : String) (req : SubmitReq)
    (txFails : Bool) (msg : String) (hval : validateSubmit req = Except.error msg) :
    submit st id req txFails = (SubmitOutcome.validationError msg, st) := by
  simp [submit, hval]

theorem submit_ok_book_trades (st : SysState) (id : String) (req : SubmitReq)
    (txFails : Bool) (side : Side) (p : ℚ) (qn : ℤ)
    (hval : validateSubmit req = Except.ok (side, p, qn)) :
    (submit st id req txFails).2.book = (processOrder st.book ⟨id, side, p, qn⟩).orderBook ∧
    (submit st id req txFails).2.trades
      = st.trades ++ (processOrder st.book ⟨id, side, p, qn⟩).newTrades := by
  cases txFails <;> simp [submit, hval]

theorem cancel_book_trades (st : SysState) (id : String) :
    ((cancel st id).2.book = st.book ∨ (cancel st id).2.book = removeFromBook st.book id) ∧
    (cancel st id).2.trades = st.trades := by
  unfold cancel
  cases hfind : st.ledgerOrders.find? (fun r => r.id == id) with
  | none => exact ⟨Or.inl rfl, rfl⟩
  | some existing =>
      dsimp only
      by_cases hst : existing.status = OrderStatus.FILLED
      · rw [if_pos hst]
        exact ⟨Or.inl rfl, rfl⟩
      · rw [if_neg hst]
        by_cases hcount : (updateManyOrder st.ledgerOrders id 0 OrderStatus.CANCELED).1 = 0
        · rw [if_pos hcount]
          exact ⟨Or.inr rfl, rfl⟩
        · rw [if_neg hcount]
          exact ⟨Or.inr rfl, rfl⟩

theorem tradedSum_eq_zero (ts : List Trade) (x : String)
    (h : ∀ t ∈ ts, ¬ t.buyOrderId = x ∧ ¬ t.sellOrderId = x) : tradedSum ts x = 0 := by
  have h1 := buySideSum_eq_zero ts x (fun t ht => (h t ht).1)
  have h2 := sellSideSum_eq_zero ts x (fun t ht => (h t ht).2)
  simp [tradedSum, h1, h2]

theorem reachableLog_inv (st : SysState) (log : List (String × ℤ))
    (h : ReachableLog st log) : StrongInv st log := by
  induction h with
  | init =>
      refine ⟨⟨?_, ?_⟩, ?_, ?_, ?_⟩
      · intro e he
        cases he
      · simp [bookIds, emptyState]
      · intro x hx
        simp [bookIds, emptyState] at hx
      · intro t ht
        cases ht
      · intro e he
        cases he
  | step_submit st log id req txFails hr hfresh ih =>
      obtain ⟨ihInv, ihIds, ihTr, ihSum⟩ := ih
      cases hval : validateSubmit req with
      | error msg =>
          rw [submit_validation_err st id req txFails msg hval]
          simp only [submitLogDelta, hval, List.append_nil]
          exact ⟨ihInv, ihIds, ihTr, ihSum⟩
      | ok v =>
          obtain ⟨side, p, qn⟩ := v
          have hpos := validateSubmit_ok req side p qn hval
          have hbt := submit_ok_book_trades st id req txFails side p qn hval
          have hofresh : (⟨id, side, p, qn⟩ : Order).id ∉ bookIds st.book := by
            intro hmem
            exact hfresh (ihIds _ hmem)
          have hsum := processOrder_summary st.book ⟨id, side, p, qn⟩ hpos.1 ihInv hofresh
          obtain ⟨hInv', hIds', hTr', hCons1, hCons2⟩ := hsum
          dsimp only at hIds' hTr' hCons1 hCons2
          have hlog' : (log ++ submitLogDelta id req).map Prod.fst
              = log.map Prod.fst ++ [id] := by
            simp [submitLogDelta, hval]
          refine ⟨?_, ?_, ?_, ?_⟩
          · rw [hbt.1]
            exact hInv'
          · intro x hx
            rw [hbt.1] at hx
            rw [hlog']
            rcases hIds' x hx with rfl | hx2
            · simp
            · exact List.mem_append.2 (Or.inl (ihIds x hx2))
          · intro t ht
            rw [hbt.2] at ht
            rw [hlog']
            rcases List.mem_append.1 ht with ht | ht
            · have := ihTr t ht
              exact ⟨List.mem_append.2 (Or.inl this.1), List.mem_append.2 (Or.inl this.2)⟩
            · have := hTr' t ht
              constructor
              · rcases this.1 with hb | hb
                · simp [hb]
                · exact List.mem_append.2 (Or.inl (ihIds _ hb))
              · rcases this.2 with hb | hb
                · simp [hb]
                · exact List.mem_append.2 (Or.inl (ihIds _ hb))
          · intro e he
            simp only [submitLogDelta, hval] at he
            rw [hbt.1, hbt.2]
            rw [tradedSum_append]
            rcases List.mem_append.1 he with he | he
            · -- an already logged order: the incoming id is fresh, so this
              -- entry is untouched on the incoming side, and conserved on
              -- the resting side
              have hne : e.1 ≠ id := by
                intro heq
                exact hfresh (heq ▸ List.mem_map.2 ⟨e, he, rfl⟩)
              have hc := hCons2 e.1 (by simpa using hne)
              have := ihSum e he
              omega
            · rcases List.mem_singleton.1 he with rfl
              have hz : tradedSum st.trades id = 0 := by
                refine tradedSum_eq_zero _ _ ?_
                intro t ht
                have := ihTr t ht
                constructor
                · intro heq
                  exact hfresh (heq ▸ this.1)
                · intro heq
                  exact hfresh (heq ▸ this.2)
              simp only
              omega
  | step_cancel st log id hr ih =>
      obtain ⟨ihInv, ihIds, ihTr, ihSum⟩ := ih
      obtain ⟨hbook, htrades⟩ := cancel_book_trades st id
      have hpos0 : ∀ e ∈ st.book.buy ++ st.book.sell, 0 ≤ e.quantity :=
        fun e he => le_of_lt (ihInv.1 e he)
      rcases hbook with hbook | hbook
      · refine ⟨?_, ?_, ?_, ?_⟩
        · rw [hbook]
          exact ihInv
        · rw [hbook]
          exact ihIds
        · rw [htrades]
          exact ihTr
        · intro e he
          rw [hbook, htrades]
          exact ihSum e he
      · have hsub := removeFromBook_sublists st.book id
        have hidsub : (bookIds (removeFromBook st.book id)).Sublist (bookIds st.book) := by
          simp only [bookIds, List.map_append]
          exact (hsub.1.map Order.id).append ((hsub.2.map Order.id))
        refine ⟨⟨?_, ?_⟩, ?_, ?_, ?_⟩
        · rw [hbook]
          intro e he
          rcases List.mem_append.1 he with he | he
          · exact ihInv.1 e (List.mem_append.2 (Or.inl (hsub.1.subset he)))
          · exact ihInv.1 e (List.mem_append.2 (Or.inr (hsub.2.subset he)))
        · rw [hbook]
          exact hidsub.nodup ihInv.2
        · rw [hbook]
          intro x hx
          exact ihIds x (hidsub.subset hx)
        · rw [htrades]
          exact ihTr
        · intro e he
          rw [hbook, htrades]
          have h1 : qtyOf (removeFromBook st.book id).buy e.1 ≤ qtyOf st.book.buy e.1 :=
            qtyOf_le_of_sublist _ _ _ hsub.1
              (fun a ha => hpos0 a (List.mem_append.2 (Or.inl ha)))
          have h2 : qtyOf (removeFromBook st.book id).sell e.1 ≤ qtyOf st.book.sell e.1 :=
            qtyOf_le_of_sublist _ _ _ hsub.2
              (fun a ha => hpos0 a (List.mem_append.2 (Or.inr ha)))
          have := ihSum e he
          simp only [bookRemaining] at this ⊢
          omega

theorem find?_updateMany (l : List LedgerOrder) (x tid : String) (q : ℤ) (s : OrderStatus) :
    ((updateManyOrder l tid q s).2).find? (fun r => r.id == x)
      = (l.find? (fun r => r.id == x)).map
          (fun r => if r.id == tid then { r with quantity := q, status := s } else r) := by
  have hpred : ((fun r : LedgerOrder => r.id == x)
      ∘ (fun r : LedgerOrder =>
        if r.id == tid then { r with quantity := q, status := s } else r))
      = (fun r : LedgerOrder => r.id == x) := by
    funext r
    by_cases h : (r.id == tid) = true <;> simp [Function.comp, h]
  show (l.map (fun r =>
      if r.id == tid then { r with quantity := q, status := s } else r)).find?
        (fun r => r.id == x) = _
  rw [List.find?_map, hpred]

theorem txFold_keep (postBook : OrderBook) (x : String) (ty : Side) (pr : ℚ)
    (hrem : findRemainingQtyInBook postBook x = 0) :
    ∀ (ts : List Trade) (led : List LedgerOrder) (ledT : List Trade),
      led.find? (fun r => r.id == x) = some ⟨x, ty, pr, 0, OrderStatus.FILLED⟩ →
      ((ts.foldl (ledgerTxStep postBook) (led, ledT)).1).find? (fun r => r.id == x)
        = some ⟨x, ty, pr, 0, OrderStatus.FILLED⟩ := by
  intro ts
  induction ts with
  | nil => intro led ledT h; simpa using h
  | cons t rest ih =>
      intro led ledT h
      rw [List.foldl_cons]
      refine ih _ _ ?_
      show ((ledgerTxStep postBook (led, ledT) t).1).find? (fun r => r.id == x)
        = some ⟨x, ty, pr, 0, OrderStatus.FILLED⟩
      unfold ledgerTxStep
      rw [find?_updateMany, find?_updateMany, h]
      simp only [Option.map_some']
      by_cases hb : ((⟨x, ty, pr, 0, OrderStatus.FILLED⟩ : LedgerOrder).id == t.buyOrderId) = true
      · rw [if_pos hb]
        have hxb : x = t.buyOrderId := by simpa using hb
        have : findRemainingQtyInBook postBook t.buyOrderId = 0 := by rw [← hxb]; exact hrem
        rw [this]
        by_cases hs : ((⟨x, ty, pr, 0, matchedStatus 0⟩ : LedgerOrder).id == t.sellOrderId) = true
        · rw [if_pos hs]
          have hxs : x = t.sellOrderId := by simpa using hs
          have h2 : findRemainingQtyInBook postBook t.sellOrderId = 0 := by
            rw [← hxs]; exact hrem
          rw [h2]
          rfl
        · rw [if_neg hs]
          rfl
      · rw [if_neg hb]
        by_cases hs : ((⟨x, ty, pr, 0, OrderStatus.FILLED⟩ : LedgerOrder).id == t.sellOrderId) = true
        · rw [if_pos hs]
          have hxs : x = t.sellOrderId := by simpa using hs
          have h2 : findRemainingQtyInBook postBook t.sellOrderId = 0 := by
            rw [← hxs]; exact hrem
          rw [h2]
          rfl
        · rw [if_neg hs]

theorem ledgerTxWrites_find_filled (led : List LedgerOrder) (ledT : List Trade)
    (postBook : OrderBook) (o : Order) (ts : List Trade)
    (hfresh : ∀ r ∈ led, r.id ≠ o.id)
    (hrem : findRemainingQtyInBook postBook o.id = 0) :
    ((ledgerTxWrites led ledT postBook o 0 OrderStatus.FILLED ts).1).find?
        (fun r => r.id == o.id) = some ⟨o.id, o.type, o.price, 0, OrderStatus.FILLED⟩ := by
  unfold ledgerTxWrites
  refine txFold_keep postBook o.id o.type o.price hrem ts _ _ ?_
  rw [List.find?_append]
  have hnone : led.find? (fun r => r.id == o.id) = none := by
    rw [List.find?_eq_none]
    intro r hr
    simpa using hfresh r hr
  rw [hnone]
  simp [List.find?]

theorem submit_ok_parts (st : SysState) (id : String) (req : SubmitReq)
    (side : Side) (p : ℚ) (qn : ℤ)
    (hval : validateSubmit req = Except.ok (side, p, qn)) :
    submit st id req false
      = (SubmitOutcome.success
          ⟨id, side, p, (processOrder st.book ⟨id, side, p, qn⟩).finalOrder.quantity⟩
          (computeStatus qn (processOrder st.book ⟨id, side, p, qn⟩).finalOrder.quantity)
          (processOrder st.book ⟨id, side, p, qn⟩).newTrades,
        { book := (processOrder st.book ⟨id, side, p, qn⟩).orderBook
          trades := st.trades ++ (processOrder st.book ⟨id, side, p, qn⟩).newTrades
          ledgerOrders := (ledgerTxWrites st.ledgerOrders st.ledgerTrades
            (processOrder st.book ⟨id, side, p, qn⟩).orderBook ⟨id, side, p, qn⟩
            (processOrder st.book ⟨id, side, p, qn⟩).finalOrder.quantity
            (computeStatus qn (processOrder st.book ⟨id, side, p, qn⟩).finalOrder.quantity)
            (processOrder st.book ⟨id, side, p, qn⟩).newTrades).1
          ledgerTrades := (ledgerTxWrites st.ledgerOrders st.ledgerTrades
            (processOrder st.book ⟨id, side, p, qn⟩).orderBook ⟨id, side, p, qn⟩
            (processOrder st.book ⟨id, side, p, qn⟩).finalOrder.quantity
            (computeStatus qn (processOrder st.book ⟨id, side, p, qn⟩).finalOrder.quantity)
            (processOrder st.book ⟨id, side, p, qn⟩).newTrades).2 }) := by
  simp [submit, hval, List.drop_left]

theorem removeFromBook_absent (b : OrderBook) (id : String)
    (h1 : b.buy.findIdx? (fun o => o.id == id) = none)
    (h2 : b.sell.findIdx? (fun o => o.id == id) = none) :
    removeFromBook b id = b := by
  simp [removeFromBook, h1, h2]

theorem map_eq_self_of_fixed (l : List LedgerOrder) (f : LedgerOrder → LedgerOrder)
    (h : ∀ r ∈ l, f r = r) : l.map f = l := by
  induction l with
  | nil => rfl
  | cons e rest ih =>
      rw [List.map_cons, h e (by simp), ih (fun r hr => h r (by simp [hr]))]

theorem updateMany_count_pos (l : List LedgerOrder) (id : String) (q : ℤ) (s : OrderStatus)
    (r : LedgerOrder) (hfind : l.find? (fun e => e.id == id) = some r) :
    (updateManyOrder l id q s).1 ≠ 0 := by
  have hmem : r ∈ l := List.mem_of_find?_eq_some hfind
  have hpr := List.find?_some hfind
  have : r ∈ l.filter (fun e => e.id == id) := List.mem_filter.2 ⟨hmem, hpr⟩
  simp only [updateManyOrder]
  intro hlen
  rw [List.length_eq_zero] at hlen
  rw [hlen] at this
  cases this

/-- C9: the promise-chain gate `withLock` runs queued cycles strictly one
at a time in FIFO submission order: enqueuing any list of cycles through
the gate yields, for every caller, exactly the outcome of its own cycle
under plain sequential FIFO execution (`seqFIFO`, modelled from the
spec), regardless of the stored queue outcome — so a cycle that fails
does not prevent later queued cycles from running, while the failing
cycle's own caller still observes the failure. -/
theorem C9_serialization_gate_fifo {σ ε α : Type} :
    ∀ (fns : List (Cycle σ ε α)) (s : σ) (q0 : Except ε Unit),
      (runQueue fns ⟨s, q0⟩).1 = (seqFIFO fns s).1 ∧
      (runQueue fns ⟨s, q0⟩).2.sys = (seqFIFO fns s).2 := by
  intro fns
  induction fns with
  | nil => intro s q0; exact ⟨rfl, rfl⟩
  | cons fn rest ih =>
      intro s q0
      have hw : withLock fn ⟨s, q0⟩
          = ((fn s).1, { sys := (fn s).2, queue := Except.ok () }) := by
        unfold withLock
        cases q0 <;> cases h : (fn s).1 <;> simp [h]
      simp only [runQueue, seqFIFO, hw]
      obtain ⟨h1, h2⟩ := ih (fn s).2 (Except.ok ())
      exact ⟨by rw [h1], h2⟩

/-- C4: from the empty book, every sequence of valid submissions (with
freshly generated ids) and cancellations leaves the order book with only
positive-quantity entries and no two entries, across both sides, sharing
an id. -/
theorem C4_book_invariant (st : SysState) (h : Reachable st) :
    (∀ e ∈ st.book.buy ++ st.book.sell, 0 < e.quantity) ∧ (bookIds st.book).Nodup := by
  obtain ⟨log, hlog⟩ := h
  exact (reachableLog_inv st log hlog).1

/-- Witness for C4 at the initial state. -/
theorem C4_book_invariant_witness :
    (∀ e ∈ emptyState.book.buy ++ emptyState.book.sell, 0 < e.quantity) ∧
      (bookIds emptyState.book).Nodup :=
  C4_book_invariant emptyState ⟨[], ReachableLog.init⟩

/-- C5: the trades of one `processOrder` call sum to at most the incoming
order's quantity at submission (its original quantity), and over any
reachable execution every submitted order participates in total traded
quantity at most its original quantity — in particular each resting
order, over all trades it participates in. -/
theorem C5_traded_quantity_bounds :
    (∀ (book : OrderBook) (o : Order), 0 ≤ o.quantity →
      sumQ (processOrder book o).newTrades ≤ o.quantity) ∧
    (∀ (st : SysState) (log : List (String × ℤ)), ReachableLog st log →
      ∀ e ∈ log, tradedSum st.trades e.1 ≤ e.2) := by
  constructor
  · intro book o hq
    cases ht : o.type
    · simp only [processOrder, ht]
      have hfin := buyLoop_final_facts book.sell o
      have h1 := hfin.2.1
      have h2 := hfin.2.2 hq
      omega
    · simp only [processOrder, ht]
      have hfin := sellLoop_final_facts book.buy o
      have h1 := hfin.2.1
      have h2 := hfin.2.2 hq
      omega
  · intro st log hlog e he
    have hinv := reachableLog_inv st log hlog
    have hsum := hinv.2.2.2 e he
    have h1 : 0 ≤ qtyOf st.book.buy e.1 :=
      qtyOf_nonneg _ _ (fun a ha => hinv.1.1 a (List.mem_append.2 (Or.inl ha)))
    have h2 : 0 ≤ qtyOf st.book.sell e.1 :=
      qtyOf_nonneg _ _ (fun a ha => hinv.1.1 a (List.mem_append.2 (Or.inr ha)))
    simp only [bookRemaining] at hsum
    omega

/-- C7: a submit rejected by validation, and a cancel failing with
NotFound or InvalidState, leave the whole system state — book, in-memory
trade history, and ledger — exactly as it was. -/
theorem C7_failed_ops_leave_state_unchanged :
    (∀ (st : SysState) (id : String) (req : SubmitReq) (txFails : Bool) (msg : String),
      (submit st id req txFails).1 = SubmitOutcome.validationError msg →
      (submit st id req txFails).2 = st) ∧
    (∀ (st : SysState) (id : String),
      ((cancel st id).1 = CancelOutcome.notFound ∨
        (cancel st id).1 = CancelOutcome.invalidState) →
      (cancel st id).2 = st) := by
  constructor
  · intro st id req txFails msg hout
    cases hval : validateSubmit req with
    | error m =>
        exact congrArg Prod.snd (submit_validation_err st id req txFails m hval)
    | ok v =>
        obtain ⟨side, p, qn⟩ := v
        exfalso
        cases txFails <;> simp [submit, hval] at hout
  · intro st id hout
    unfold cancel at hout ⊢
    cases hfind : st.ledgerOrders.find? (fun r => r.id == id) with
    | none =>
        rfl
    | some existing =>
        rw [hfind] at hout
        dsimp only at hout ⊢
        by_cases hst : existing.status = OrderStatus.FILLED
        · rw [if_pos hst]
        · rw [if_neg hst] at hout ⊢
          have hcount := updateMany_count_pos st.ledgerOrders id 0 OrderStatus.CANCELED
            existing hfind
          rw [if_neg hcount] at hout ⊢
          rcases hout with hout | hout <;> cases hout

/-- C8: when matching succeeds but the ledger transaction fails, the
caller sees the persistence failure while the in-memory book mutation
and trade-history append made by the cycle remain in place and the
durable ledger is untouched. -/
theorem C8_persistence_failure_keeps_memory_mutations
    (st : SysState) (id : String) (req : SubmitReq) (side : Side) (p : ℚ) (qn : ℤ)
    (hval : validateSubmit req = Except.ok (side, p, qn)) :
    (submit st id req true).1 = SubmitOutcome.persistenceError ∧
    (submit st id req true).2.book = (processOrder st.book ⟨id, side, p, qn⟩).orderBook ∧
    (submit st id req true).2.trades
      = st.trades ++ (processOrder st.book ⟨id, side, p, qn⟩).newTrades ∧
    (submit st id req true).2.ledgerOrders = st.ledgerOrders ∧
    (submit st id req true).2.ledgerTrades = st.ledgerTrades := by
  refine ⟨?_, ?_, ?_, ?_, ?_⟩ <;> simp [submit, hval]

/-- Witness for C8 at a concrete failing submission. -/
theorem C8_persistence_failure_witness :
    (submit emptyState "a"
        ⟨some "buy", some (NumVal.num 1), some (NumVal.num 1)⟩ true).1
      = SubmitOutcome.persistenceError ∧
    (submit emptyState "a"
        ⟨some "buy", some (NumVal.num 1), some (NumVal.num 1)⟩ true).2.book
      = (processOrder emptyState.book ⟨"a", Side.buy, 1, 1⟩).orderBook ∧
    (submit emptyState "a"
        ⟨some "buy", some (NumVal.num 1), some (NumVal.num 1)⟩ true).2.trades
      = emptyState.trades
        ++ (processOrder emptyState.book ⟨"a", Side.buy, 1, 1⟩).newTrades ∧
    (submit emptyState "a"
        ⟨some "buy", some (NumVal.num 1), some (NumVal.num 1)⟩ true).2.ledgerOrders
      = emptyState.ledgerOrders ∧
    (submit emptyState "a"
        ⟨some "buy", some (NumVal.num 1), some (NumVal.num 1)⟩ true).2.ledgerTrades
      = emptyState.ledgerTrades :=
  C8_persistence_failure_keeps_memory_mutations emptyState "a"
    ⟨some "buy", some (NumVal.num 1), some (NumVal.num 1)⟩ Side.buy 1 1 (by rfl)

/-- C2 (amended): once an order's ledger record is CANCELED with
quantity 0 and the order is out of the book, a second cancel of the same
id does not fail with NotFound — it succeeds again, and it causes no
state change in either the book or the ledger. -/
theorem C2_second_cancel_succeeds_unchanged (st : SysState) (id : String) (r : LedgerOrder)
    (hfind : st.ledgerOrders.find? (fun e => e.id == id) = some r)
    (hall : ∀ e ∈ st.ledgerOrders, e.id = id →
      e.status = OrderStatus.CANCELED ∧ e.quantity = 0)
    (hbuy : st.book.buy.findIdx? (fun o => o.id == id) = none)
    (hsell : st.book.sell.findIdx? (fun o => o.id == id) = none) :
    cancel st id = (CancelOutcome.success, st) := by
  have hrprops : r.status = OrderStatus.CANCELED ∧ r.quantity = 0 :=
    hall r (List.mem_of_find?_eq_some hfind) (by simpa using List.find?_some hfind)
  unfold cancel
  rw [hfind]
  dsimp only
  have hnotf : ¬ r.status = OrderStatus.FILLED := by
    rw [hrprops.1]
    intro hcontra
    cases hcontra
  rw [if_neg hnotf]
  have hcount := updateMany_count_pos st.ledgerOrders id 0 OrderStatus.CANCELED r hfind
  rw [if_neg hcount]
  have hbook : removeFromBook st.book id = st.book := removeFromBook_absent _ _ hbuy hsell
  have hled : (updateManyOrder st.ledgerOrders id 0 OrderStatus.CANCELED).2
      = st.ledgerOrders := by
    simp only [updateManyOrder]
    refine map_eq_self_of_fixed _ _ ?_
    intro e he
    by_cases hid : (e.id == id) = true
    · rw [if_pos hid]
      obtain ⟨h1, h2⟩ := hall e he (by simpa using hid)
      rcases e with ⟨eid, ety, epr, eqty, est⟩
      simp only at h1 h2
      rw [h1, h2]
    · rw [if_neg hid]
  rw [hbook, hled]

/-- Counterexample to C2 as stated: after an order is canceled once, a
second cancel of the same id returns success — not the NotFound failure
the claim requires — and leaves the state unchanged. -/
theorem C2_counterexample :
    (cancel ⟨⟨[⟨"a", Side.buy, 1, 1⟩], []⟩, [],
        [⟨"a", Side.buy, 1, 1, OrderStatus.OPEN⟩], []⟩ "a").1
      = CancelOutcome.success ∧
    (cancel (cancel ⟨⟨[⟨"a", Side.buy, 1, 1⟩], []⟩, [],
        [⟨"a", Side.buy, 1, 1, OrderStatus.OPEN⟩], []⟩ "a").2 "a").1
      = CancelOutcome.success ∧
    (cancel (cancel ⟨⟨[⟨"a", Side.buy, 1, 1⟩], []⟩, [],
        [⟨"a", Side.buy, 1, 1, OrderStatus.OPEN⟩], []⟩ "a").2 "a").1
      ≠ CancelOutcome.notFound ∧
    (cancel (cancel ⟨⟨[⟨"a", Side.buy, 1, 1⟩], []⟩, [],
        [⟨"a", Side.buy, 1, 1, OrderStatus.OPEN⟩], []⟩ "a").2 "a").2
      = (cancel ⟨⟨[⟨"a", Side.buy, 1, 1⟩], []⟩, [],
        [⟨"a", Side.buy, 1, 1, OrderStatus.OPEN⟩], []⟩ "a").2 := by
  refine ⟨rfl, rfl, ?_, rfl⟩
  intro hcontra
  cases hcontra

/-- Witness for the amended C2 at a concrete already-canceled state. -/
theorem C2_second_cancel_witness :
    cancel ⟨⟨[], []⟩, [], [⟨"a", Side.buy, 1, 0, OrderStatus.CANCELED⟩], []⟩ "a"
      = (CancelOutcome.success,
        ⟨⟨[], []⟩, [], [⟨"a", Side.buy, 1, 0, OrderStatus.CANCELED⟩], []⟩) :=
  C2_second_cancel_succeeds_unchanged
    ⟨⟨[], []⟩, [], [⟨"a", Side.buy, 1, 0, OrderStatus.CANCELED⟩], []⟩ "a"
    ⟨"a", Side.buy, 1, 0, OrderStatus.CANCELED⟩ (by rfl)
    (by
      intro e he hid
      simp at he
      rw [he]
      exact ⟨rfl, rfl⟩)
    (by rfl) (by rfl)

/-- C10: in one `processOrder` call over a well-formed book, the order
updates pair up one-to-one with the trades, every update except possibly
the last records remaining quantity 0, and every non-final trade's
resting counterparty is gone from the final book — so at most one
resting order touched by the call remains, the final trade's
counterparty. -/
theorem C10_nonfinal_trades_consume_resting (book : OrderBook) (o : Order)
    (hnd : (bookIds book).Nodup) :
    (processOrder book o).orderUpdates.length = (processOrder book o).newTrades.length ∧
    (∀ k, k + 1 < (processOrder book o).newTrades.length →
      ((processOrder book o).orderUpdates.getD k dummyUpd).quantity = 0) ∧
    (o.type = Side.buy →
      ∀ k, k + 1 < (processOrder book o).newTrades.length →
        ((processOrder book o).newTrades.getD k dummyTrade).sellOrderId
          ∉ ((processOrder book o).orderBook.sell.map Order.id)) ∧
    (o.type = Side.sell →
      ∀ k, k + 1 < (processOrder book o).newTrades.length →
        ((processOrder book o).newTrades.getD k dummyTrade).buyOrderId
          ∉ ((processOrder book o).orderBook.buy.map Order.id)) ∧
    (∀ k, k < (processOrder book o).orderUpdates.length →
      ((processOrder book o).orderUpdates.getD k dummyUpd).id
        = (if o.type = Side.buy
            then ((processOrder book o).newTrades.getD k dummyTrade).sellOrderId
            else ((processOrder book o).newTrades.getD k dummyTrade).buyOrderId)) := by
  have hndpair : (book.buy.map Order.id ++ book.sell.map Order.id).Nodup := by
    have : bookIds book = book.buy.map Order.id ++ book.sell.map Order.id := by
      simp [bookIds]
    rw [← this]
    exact hnd
  rw [List.nodup_append] at hndpair
  cases ht : o.type with
  | buy =>
      simp only [processOrder, ht]
      have hupd := buyLoop_updates_facts book.sell o
      have hgone := buyLoop_consumed_gone book.sell o hndpair.2.1
      refine ⟨hupd.1, ?_, ?_, ?_, ?_⟩
      · intro k hk
        exact hupd.2.2 k (by omega)
      · intro _ k hk
        exact hgone k hk
      · intro habs
        cases habs
      · intro k hk
        simpa using hupd.2.1 k hk
  | sell =>
      simp only [processOrder, ht]
      have hupd := sellLoop_updates_facts book.buy o
      have hgone := sellLoop_consumed_gone book.buy o hndpair.1
      refine ⟨hupd.1, ?_, ?_, ?_, ?_⟩
      · intro k hk
        exact hupd.2.2 k (by omega)
      · intro habs
        cases habs
      · intro _ k hk
        exact hgone k hk
      · intro k hk
        simpa using hupd.2.1 k hk

/-- Witness for C10 at a concrete call: empty book, one incoming buy. -/
theorem C10_witness :
    (processOrder ⟨[], []⟩ ⟨"x", Side.buy, 1, 1⟩).orderUpdates.length
      = (processOrder ⟨[], []⟩ ⟨"x", Side.buy, 1, 1⟩).newTrades.length ∧
    (∀ k, k + 1 < (processOrder ⟨[], []⟩ ⟨"x", Side.buy, 1, 1⟩).newTrades.length →
      ((processOrder ⟨[], []⟩ ⟨"x", Side.buy, 1, 1⟩).orderUpdates.getD k dummyUpd).quantity
        = 0) ∧
    ((⟨"x", Side.buy, 1, 1⟩ : Order).type = Side.buy →
      ∀ k, k + 1 < (processOrder ⟨[], []⟩ ⟨"x", Side.buy, 1, 1⟩).newTrades.length →
        ((processOrder ⟨[], []⟩ ⟨"x", Side.buy, 1, 1⟩).newTrades.getD k
            dummyTrade).sellOrderId
          ∉ ((processOrder ⟨[], []⟩
              ⟨"x", Side.buy, 1, 1⟩).orderBook.sell.map Order.id)) ∧
    ((⟨"x", Side.buy, 1, 1⟩ : Order).type = Side.sell →
      ∀ k, k + 1 < (processOrder ⟨[], []⟩ ⟨"x", Side.buy, 1, 1⟩).newTrades.length →
        ((processOrder ⟨[], []⟩ ⟨"x", Side.buy, 1, 1⟩).newTrades.getD k
            dummyTrade).buyOrderId
          ∉ ((processOrder ⟨[], []⟩
              ⟨"x", Side.buy, 1, 1⟩).orderBook.buy.map Order.id)) ∧
    (∀ k, k < (processOrder ⟨[], []⟩ ⟨"x", Side.buy, 1, 1⟩).orderUpdates.length →
      ((processOrder ⟨[], []⟩ ⟨"x", Side.buy, 1, 1⟩).orderUpdates.getD k dummyUpd).id
        = (if (⟨"x", Side.buy, 1, 1⟩ : Order).type = Side.buy
            then ((processOrder ⟨[], []⟩ ⟨"x", Side.buy, 1, 1⟩).newTrades.getD k
              dummyTrade).sellOrderId
            else ((processOrder ⟨[], []⟩ ⟨"x", Side.buy, 1, 1⟩).newTrades.getD k
              dummyTrade).buyOrderId)) :=
  C10_nonfinal_trades_consume_resting ⟨[], []⟩ ⟨"x", Side.buy, 1, 1⟩ (by decide)

/-- Concrete run of the spec's example: resting sells 3@9 (earlier) and
5@9, incoming buy 6 @ 9.50. -/
theorem exampleRun_buy_sweep :
    processOrder ⟨[], [⟨"s1", Side.sell, 9, 3⟩, ⟨"s2", Side.sell, 9, 5⟩]⟩
        ⟨"b", Side.buy, 19/2, 6⟩
      = ⟨⟨[], [⟨"s2", Side.sell, 9, 2⟩]⟩,
          [⟨"b", "s1", 9, 3⟩, ⟨"b", "s2", 9, 3⟩],
          [⟨"s1", 0⟩, ⟨"s2", 2⟩],
          ⟨"b", Side.buy, 19/2, 0⟩⟩ := by
  have hloop : buyLoop [⟨"s1", Side.sell, 9, 3⟩, ⟨"s2", Side.sell, 9, 5⟩]
      ⟨"b", Side.buy, 19/2, 6⟩
      = ([⟨"s2", Side.sell, 9, 2⟩], ⟨"b", Side.buy, 19/2, 0⟩,
          [⟨"b", "s1", 9, 3⟩, ⟨"b", "s2", 9, 3⟩],
          [⟨"s1", 0⟩, ⟨"s2", 2⟩]) := by
    rw [buyLoop_step _ _ 0 9 (by norm_num)
          (by norm_num [bestSellIdxPrice, bestSellScan, beatsBestSell])]
    norm_num [dummyOrder]
    rw [buyLoop_step _ _ 0 9 (by norm_num)
          (by norm_num [bestSellIdxPrice, bestSellScan, beatsBestSell])]
    norm_num [dummyOrder]
    rw [buyLoop_exit _ _ (by norm_num)]
    simp
  simp [processOrder, hloop]

/-- C3 (amended): at every step the matching loop selects the
best-priced qualifying resting order, ties broken by earliest insertion,
recomputing the choice each iteration (stated as correctness of both
price scans); on the spec's example — resting sells 3@9.00 (earlier) and
5@9.00, incoming buy 6@9.50 — it produces two trades of 3 units, the
earlier sell fully consumed first, the later sell left resting with 2
units (not fully consumed), and the buy ends FILLED. -/
theorem C3_price_time_priority_selection :
    (∀ (sells : List Order) (limit : ℚ) (i : ℕ) (p : ℚ),
      bestSellIdxPrice sells limit = some (i, p) →
        i < sells.length ∧ (sells.getD i dummyOrder).price = p ∧ p ≤ limit ∧
        (∀ x ∈ sells, x.price ≤ limit → p ≤ x.price) ∧
        (∀ j, j < i → (sells.getD j dummyOrder).price ≤ limit →
          p < (sells.getD j dummyOrder).price)) ∧
    (∀ (sells : List Order) (limit : ℚ),
      bestSellIdxPrice sells limit = none → ∀ x ∈ sells, ¬ x.price ≤ limit) ∧
    (∀ (buys : List Order) (limit : ℚ) (i : ℕ) (p : ℚ),
      bestBuyIdxPrice buys limit = some (i, p) →
        i < buys.length ∧ (buys.getD i dummyOrder).price = p ∧ limit ≤ p ∧
        (∀ x ∈ buys, limit ≤ x.price → x.price ≤ p) ∧
        (∀ j, j < i → limit ≤ (buys.getD j dummyOrder).price →
          (buys.getD j dummyOrder).price < p)) ∧
    (∀ (buys : List Order) (limit : ℚ),
      bestBuyIdxPrice buys limit = none → ∀ x ∈ buys, ¬ limit ≤ x.price) ∧
    ((processOrder ⟨[], [⟨"s1", Side.sell, 9, 3⟩, ⟨"s2", Side.sell, 9, 5⟩]⟩
        ⟨"b", Side.buy, 19/2, 6⟩).newTrades
      = [⟨"b", "s1", 9, 3⟩, ⟨"b", "s2", 9, 3⟩] ∧
      (processOrder ⟨[], [⟨"s1", Side.sell, 9, 3⟩, ⟨"s2", Side.sell, 9, 5⟩]⟩
        ⟨"b", Side.buy, 19/2, 6⟩).orderBook.sell = [⟨"s2", Side.sell, 9, 2⟩] ∧
      (processOrder ⟨[], [⟨"s1", Side.sell, 9, 3⟩, ⟨"s2", Side.sell, 9, 5⟩]⟩
        ⟨"b", Side.buy, 19/2, 6⟩).orderBook.buy = [] ∧
      (processOrder ⟨[], [⟨"s1", Side.sell, 9, 3⟩, ⟨"s2", Side.sell, 9, 5⟩]⟩
        ⟨"b", Side.buy, 19/2, 6⟩).finalOrder.quantity = 0 ∧
      computeStatus 6 0 = OrderStatus.FILLED) := by
  refine ⟨?_, ?_, ?_, ?_, ?_⟩
  · intro sells limit i p h
    exact (bestSellIdxPrice_spec sells limit).2 i p h
  · intro sells limit h
    exact (bestSellIdxPrice_spec sells limit).1 h
  · intro buys limit i p h
    exact (bestBuyIdxPrice_spec buys limit).2 i p h
  · intro buys limit h
    exact (bestBuyIdxPrice_spec buys limit).1 h
  · rw [exampleRun_buy_sweep]
    refine ⟨rfl, rfl, rfl, rfl, rfl⟩

/-- Counterexample to C3 as stated: in the claimed example the two
trades do not fully consume both sells — the later sell survives in the
book with 2 units remaining. -/
theorem C3_counterexample_second_sell_remains :
    (processOrder ⟨[], [⟨"s1", Side.sell, 9, 3⟩, ⟨"s2", Side.sell, 9, 5⟩]⟩
        ⟨"b", Side.buy, 19/2, 6⟩).orderBook.sell = [⟨"s2", Side.sell, 9, 2⟩] ∧
    (⟨"s2", Side.sell, 9, 2⟩ : Order).quantity ≠ 0 := by
  rw [exampleRun_buy_sweep]
  refine ⟨rfl, by norm_num⟩

/-- C1 at its failing input: with a resting buy 5 @ 10 and an incoming
sell 5 @ 9, the matching step records the trade at the incoming sell's
price 9, not at the resting order's price 10 as the spec requires. -/
theorem C1_sell_branch_records_incoming_price :
    (processOrder ⟨[⟨"b1", Side.buy, 10, 5⟩], []⟩ ⟨"s1", Side.sell, 9, 5⟩).newTrades
      = [⟨"b1", "s1", 9, 5⟩] ∧
    ((⟨[⟨"b1", Side.buy, 10, 5⟩], []⟩ : OrderBook).buy.getD 0 dummyOrder).price = 10 ∧
    (9 : ℚ) ≠ 10 := by
  have hloop : sellLoop [⟨"b1", Side.buy, 10, 5⟩] ⟨"s1", Side.sell, 9, 5⟩
      = ([], ⟨"s1", Side.sell, 9, 0⟩, [⟨"b1", "s1", 9, 5⟩], [⟨"b1", 0⟩]) := by
    rw [sellLoop_step _ _ 0 10 (by norm_num)
          (by norm_num [bestBuyIdxPrice, bestBuyScan, beatsBestBuy])]
    norm_num [dummyOrder]
    rw [sellLoop_exit _ _ (by norm_num)]
    simp
  refine ⟨?_, by norm_num [dummyOrder], by norm_num⟩
  simp [processOrder, hloop]

theorem processOrder_buy_eq (book : OrderBook) (o : Order) (ht : o.type = Side.buy) :
    processOrder book o
      = ⟨⟨(if 0 < (buyLoop book.sell o).2.1.quantity
            then book.buy ++ [(buyLoop book.sell o).2.1] else book.buy),
          (buyLoop book.sell o).1⟩,
        (buyLoop book.sell o).2.2.1, (buyLoop book.sell o).2.2.2,
        (buyLoop book.sell o).2.1⟩ := by
  simp [processOrder, ht]

theorem processOrder_sell_eq (book : OrderBook) (o : Order) (ht : o.type = Side.sell) :
    processOrder book o
      = ⟨⟨(sellLoop book.buy o).1,
          (if 0 < (sellLoop book.buy o).2.1.quantity
            then book.sell ++ [(sellLoop book.buy o).2.1] else book.sell)⟩,
        (sellLoop book.buy o).2.2.1, (sellLoop book.buy o).2.2.2,
        (sellLoop book.buy o).2.1⟩ := by
  simp [processOrder, ht]

/-- C6: a valid submission whose quantity can be fully matched against
the qualifying resting liquidity (at least the submitted quantity rests
at prices satisfying its limit on the opposite side) leaves the incoming
order absent from both sides of the book, its ledger record written with
status FILLED and remaining quantity 0, and the caller answered with the
FILLED order. -/
theorem C6_fully_matched_submission_filled (st : SysState) (id : String)
    (req : SubmitReq) (side : Side) (p : ℚ) (qn : ℤ)
    (hval : validateSubmit req = Except.ok (side, p, qn))
    (hinv : bookInv st.book)
    (hfreshBook : id ∉ bookIds st.book)
    (hfreshLedger : ∀ r ∈ st.ledgerOrders, r.id ≠ id)
    (hliqBuy : side = Side.buy → qn ≤ qualSumSell st.book.sell p)
    (hliqSell : side = Side.sell → qn ≤ qualSumBuy st.book.buy p) :
    id ∉ bookIds (submit st id req false).2.book ∧
    (submit st id req false).2.ledgerOrders.find? (fun r => r.id == id)
      = some ⟨id, side, p, 0, OrderStatus.FILLED⟩ ∧
    (submit st id req false).1
      = SubmitOutcome.success ⟨id, side, p, 0⟩ OrderStatus.FILLED
          (processOrder st.book ⟨id, side, p, qn⟩).newTrades := by
  have hq := validateSubmit_ok req side p qn hval
  have hfreshBuy : id ∉ st.book.buy.map Order.id := by
    intro hm
    apply hfreshBook
    simp only [bookIds, List.map_append, List.mem_append]
    exact Or.inl hm
  have hfreshSell : id ∉ st.book.sell.map Order.id := by
    intro hm
    apply hfreshBook
    simp only [bookIds, List.map_append, List.mem_append]
    exact Or.inr hm
  have hposBuy : ∀ e ∈ st.book.buy, 0 < e.quantity :=
    fun e he => hinv.1 e (List.mem_append.2 (Or.inl he))
  have hposSell : ∀ e ∈ st.book.sell, 0 < e.quantity :=
    fun e he => hinv.1 e (List.mem_append.2 (Or.inr he))
  have hstat : computeStatus qn 0 = OrderStatus.FILLED := by
    simp [computeStatus]
  cases side with
  | buy =>
      have hfq : (buyLoop st.book.sell ⟨id, Side.buy, p, qn⟩).2.1.quantity = 0 :=
        buyLoop_fill st.book.sell ⟨id, Side.buy, p, qn⟩ (le_of_lt hq.1) hposSell
          (by simpa using hliqBuy rfl)
      have hP := processOrder_buy_eq st.book ⟨id, Side.buy, p, qn⟩ rfl
      have habs : id ∉ bookIds (processOrder st.book ⟨id, Side.buy, p, qn⟩).orderBook := by
        rw [hP]
        simp only [bookIds, hfq, lt_irrefl, if_false, List.map_append, List.mem_append]
        intro hmem
        rcases hmem with hmem | hmem
        · exact hfreshBuy hmem
        · exact hfreshSell
            ((buyLoop_map_sublist st.book.sell _ Order.id (fun a q => rfl)).subset hmem)
      have hrem : findRemainingQtyInBook
          (processOrder st.book ⟨id, Side.buy, p, qn⟩).orderBook id = 0 := by
        unfold findRemainingQtyInBook
        rw [hP] at habs ⊢
        simp only [bookIds, List.map_append, List.mem_append, not_or] at habs
        have h1 : ((if 0 < (buyLoop st.book.sell ⟨id, Side.buy, p, qn⟩).2.1.quantity
            then st.book.buy ++ [(buyLoop st.book.sell ⟨id, Side.buy, p, qn⟩).2.1]
            else st.book.buy) : List Order).find? (fun o => o.id == id) = none := by
          rw [List.find?_eq_none]
          intro a ha
          simp only [beq_iff_eq]
          intro heq
          exact habs.1 (List.mem_map.2 ⟨a, ha, heq⟩)
        have h2 : ((buyLoop st.book.sell ⟨id, Side.buy, p, qn⟩).1).find?
            (fun o => o.id == id) = none := by
          rw [List.find?_eq_none]
          intro a ha
          simp only [beq_iff_eq]
          intro heq
          exact habs.2 (List.mem_map.2 ⟨a, ha, heq⟩)
        rw [h1, h2]
      have hparts := submit_ok_parts st id req Side.buy p qn hval
      have hfinq : (processOrder st.book ⟨id, Side.buy, p, qn⟩).finalOrder.quantity = 0 := by
        rw [hP]
        exact hfq
      refine ⟨?_, ?_, ?_⟩
      · rw [hparts]
        exact habs
      · rw [hparts]
        dsimp only
        rw [hfinq, hstat]
        have := ledgerTxWrites_find_filled st.ledgerOrders st.ledgerTrades
          (processOrder st.book ⟨id, Side.buy, p, qn⟩).orderBook
          ⟨id, Side.buy, p, qn⟩
          (processOrder st.book ⟨id, Side.buy, p, qn⟩).newTrades
          (by intro r hr; exact hfreshLedger r hr) hrem
        exact this
      · rw [hparts]
        rw [hfinq, hstat]
  | sell =>
      have hfq : (sellLoop st.book.buy ⟨id, Side.sell, p, qn⟩).2.1.quantity = 0 :=
        sellLoop_fill st.book.buy ⟨id, Side.sell, p, qn⟩ (le_of_lt hq.1) hposBuy
          (by simpa using hliqSell rfl)
      have hP := processOrder_sell_eq st.book ⟨id, Side.sell, p, qn⟩ rfl
      have habs : id ∉ bookIds (processOrder st.book ⟨id, Side.sell, p, qn⟩).orderBook := by
        rw [hP]
        simp only [bookIds, hfq, lt_irrefl, if_false, List.map_append, List.mem_append]
        intro hmem
        rcases hmem with hmem | hmem
        · exact hfreshBuy
            ((sellLoop_map_sublist st.book.buy _ Order.id (fun a q => rfl)).subset hmem)
        · exact hfreshSell hmem
      have hrem : findRemainingQtyInBook
          (processOrder st.book ⟨id, Side.sell, p, qn⟩).orderBook id = 0 := by
        unfold findRemainingQtyInBook
        rw [hP] at habs ⊢
        simp only [bookIds, List.map_append, List.mem_append, not_or] at habs
        have h1 : ((sellLoop st.book.buy ⟨id, Side.sell, p, qn⟩).1).find?
            (fun o => o.id == id) = none := by
          rw [List.find?_eq_none]
          intro a ha
          simp only [beq_iff_eq]
          intro heq
          exact habs.1 (List.mem_map.2 ⟨a, ha, heq⟩)
        have h2 : ((if 0 < (sellLoop st.book.buy ⟨id, Side.sell, p, qn⟩).2.1.quantity
            then st.book.sell ++ [(sellLoop st.book.buy ⟨id, Side.sell, p, qn⟩).2.1]
            else st.book.sell) : List Order).find? (fun o => o.id == id) = none := by
          rw [List.find?_eq_none]
          intro a ha
          simp only [beq_iff_eq]
          intro heq
          exact habs.2 (List.mem_map.2 ⟨a, ha, heq⟩)
        rw [h1, h2]
      have hparts := submit_ok_parts st id req Side.sell p qn hval
      have hfinq : (processOrder st.book ⟨id, Side.sell, p, qn⟩).finalOrder.quantity = 0 := by
        rw [hP]
        exact hfq
      refine ⟨?_, ?_, ?_⟩
      · rw [hparts]
        exact habs
      · rw [hparts]
        dsimp only
        rw [hfinq, hstat]
        exact ledgerTxWrites_find_filled st.ledgerOrders st.ledgerTrades
          (processOrder st.book ⟨id, Side.sell, p, qn⟩).orderBook
          ⟨id, Side.sell, p, qn⟩
          (processOrder st.book ⟨id, Side.sell, p, qn⟩).newTrades
          (by intro r hr; exact hfreshLedger r hr) hrem
      · rw [hparts]
        rw [hfinq, hstat]

/-- Witness for C6: a buy 1 @ 1 against a book holding one sell 1 @ 1. -/
theorem C6_fully_matched_witness :
    "b" ∉ bookIds (submit ⟨⟨[], [⟨"s", Side.sell, 1, 1⟩]⟩, [], [], []⟩ "b"
        ⟨some "buy", some (NumVal.num 1), some (NumVal.num 1)⟩ false).2.book ∧
    (submit ⟨⟨[], [⟨"s", Side.sell, 1, 1⟩]⟩, [], [], []⟩ "b"
        ⟨some "buy", some (NumVal.num 1), some (NumVal.num 1)⟩ false).2.ledgerOrders.find?
          (fun r => r.id == "b")
      = some ⟨"b", Side.buy, 1, 0, OrderStatus.FILLED⟩ ∧
    (submit ⟨⟨[], [⟨"s", Side.sell, 1, 1⟩]⟩, [], [], []⟩ "b"
        ⟨some "buy", some (NumVal.num 1), some (NumVal.num 1)⟩ false).1
      = SubmitOutcome.success ⟨"b", Side.buy, 1, 0⟩ OrderStatus.FILLED
          (processOrder ⟨[], [⟨"s", Side.sell, 1, 1⟩]⟩ ⟨"b", Side.buy, 1, 1⟩).newTrades :=
  C6_fully_matched_submission_filled ⟨⟨[], [⟨"s", Side.sell, 1, 1⟩]⟩, [], [], []⟩ "b"
    ⟨some "buy", some (NumVal.num 1), some (NumVal.num 1)⟩ Side.buy 1 1
    (by rfl)
    (by
      constructor
      · intro e he
        simp at he
        rw [he]
        norm_num
      · simp [bookIds])
    (by simp [bookIds])
    (by intro r hr; cases hr)
    (by
      intro _
      norm_num [qualSumSell])
    (by
      intro hcontra
      cases hcontra)

end MiniExchange

